import Mathlib

/-!
The command interpreter wish (src/wish.c).

A shallow embedding of the command-processing pipeline of `wish.c`:
the tokenizer `split_to_args`, the redirection resolver `handle_redirection`,
the executor `command_execute`, the built-ins `command_cd` and `command_path`,
the coordinator `handle_parallel_commands` and one iteration of the loop of `main`.

Conventions of the embedding.

* A C string is the list of its characters before the terminating NUL (`Str`).
* A NULL-terminated `char **` vector is the list of its entries before the first
  NULL; reading index `k` of it is `args[k]?`, with `none` for the NULL entry.
* `strtok` keeps its scanning position in hidden static storage; here the rest of
  the string still to be scanned is passed explicitly.
* The operating system is a parameter (`OS`): the answers of `access`, `open`,
  `chdir`, `fork` and `execv`.  `malloc`, `realloc`, `strdup`, `dup`, `dup2` and
  `close` are taken to succeed.
* Every process appends what it does to one log (`Shell.trace`).  An event of a
  child process is wrapped in `Event.in_child`, once per level of `fork`.  A child
  is run to its end at the place of its `fork`; the relative order of events of
  different processes in the log is this convention only.
-/

namespace Wish

/-- A C string: its characters before the terminating NUL. -/
abbrev Str := List Char

/-! ## strtok -/

/-- The part of `s` after its leading delimiters (`strspn`). -/
def skip_delims (delim : Str) : Str → Str
  | [] => []
  | c :: cs => if c ∈ delim then skip_delims delim cs else c :: cs

/-- Scan a token: the characters up to the first delimiter, and what follows that
delimiter (the delimiter itself is overwritten by NUL). -/
def scan_token (delim : Str) : Str → Str × Str
  | [] => ([], [])
  | c :: cs =>
    if c ∈ delim then ([], cs)
    else ((c :: (scan_token delim cs).1), (scan_token delim cs).2)

/-- One call of `strtok` on the text `s` still to be scanned: `none` for a NULL
result, else the token and the text left for the next call. -/
def strtok (delim : Str) (s : Str) : Option (Str × Str) :=
  match skip_delims delim s with
  | [] => none
  | c :: cs => some (scan_token delim (c :: cs))

/-! ## split_to_args -/

/-- The delimiters of `split_to_args`: space and tab. -/
def blanks : Str := [' ', '\t']

/-- The local variables of `split_to_args`.  `tokens` holds the entries
`tokens[0 .. position)`; `bufsize` is the allocated capacity; `writes` logs, for
every assignment `tokens[position] = ...`, the index written and the capacity
at that moment. -/
structure TokenBuf where
  tokens : List Str
  position : Nat
  bufsize : Nat
  writes : List (Nat × Nat)
deriving DecidableEq, Repr

/-- The body of `while (token != NULL)` in `split_to_args`, iterated.  The first
argument bounds the number of iterations. -/
def split_loop : Nat → Option (Str × Str) → TokenBuf → TokenBuf
  | 0, _, b => b
  | _ + 1, none, b => b
  | fuel + 1, some (token, rest), b =>
    let b1 : TokenBuf :=
      { tokens := b.tokens ++ [token]
        position := b.position + 1
        bufsize := b.bufsize
        writes := b.writes ++ [(b.position, b.bufsize)] }
    let b2 : TokenBuf :=
      if b1.position ≥ b1.bufsize then { b1 with bufsize := b1.bufsize + 64 } else b1
    split_loop fuel (strtok blanks rest) b2

/-- The function `split_to_args` (wish.c 121-151): the final values of its locals.
`tokens` is the returned vector, `position` the value stored in `*argc`. -/
def split_to_args (line : Str) : TokenBuf :=
  let b := split_loop (line.length + 1) (strtok blanks line)
    { tokens := [], position := 0, bufsize := 64, writes := [] }
  { b with writes := b.writes ++ [(b.position, b.bufsize)] }

/-! ## Processes, events and the operating system -/

/-- What a standard descriptor (1 or 2) of a process is bound to: the stream the
interpreter was started with, or a file opened by `handle_redirection`. -/
inductive Stream where
  | orig_stdout
  | orig_stderr
  | file (f : Str)
deriving DecidableEq, Repr

/-- The functions of wish.c whose invocation is logged. -/
inductive Fn where
  | command_execute
  | command_cd
  | command_path
  | handle_redirection
  | handle_parallel_commands
deriving DecidableEq, Repr

/-- What a process does, as far as the log records it. -/
inductive Event where
  /-- Entry of a function of wish.c with its argument vector (for
  `handle_parallel_commands`: the line, as a one-element vector). -/
  | call (fn : Fn) (args : List Str)
  /-- The call `write(STDERR_FILENO, error_message, ...)`; `dest` is what descriptor 2
  is bound to at that moment. -/
  | error (dest : Stream)
  /-- The call `open(f, O_WRONLY | O_CREAT | O_TRUNC, S_IRWXU)` and whether it succeeded. -/
  | open_file (f : Str) (ok : Bool)
  /-- The calls `dup2(fd, STDOUT_FILENO); dup2(fd, STDERR_FILENO); close(fd)` for the file `f`. -/
  | redirect (f : Str)
  /-- The call `chdir(d)` and whether it succeeded. -/
  | chdir (d : Str) (ok : Bool)
  /-- The call `fork()` and whether a child was created; `args` is the command
  vector in the hands of the caller at that moment. -/
  | fork (args : List Str) (ok : Bool)
  /-- The call `execv(full_path, args)` with the bindings of descriptors 1 and 2 at
  that moment, and whether the program image was replaced. -/
  | execv (full_path : Str) (args : List Str) (out err : Stream) (ok : Bool)
  /-- The read of `args[0]` gave NULL and that pointer reached `snprintf("%s/%s")` in
  the first iteration of the search loop: the behaviour of the process is
  undefined from here on. -/
  | null_command
  /-- The call `wait(NULL)`. -/
  | wait
  /-- The call `exit(code)`. -/
  | exit (code : Nat)
  /-- An event of a child of the process. -/
  | in_child (e : Event)
deriving DecidableEq, Repr

/-- Wrap an event once per level of `fork` between the interpreter and the
process it belongs to. -/
def tag : Nat → Event → Event
  | 0, e => e
  | d + 1, e => Event.in_child (tag d e)

/-- The answers of the operating system while one line is processed. -/
structure OS where
  /-- Does `access(path, X_OK)` return 0. -/
  access_x : Str → Bool
  /-- Does `open(f, O_WRONLY | O_CREAT | O_TRUNC, S_IRWXU)` return a descriptor. -/
  open_ok : Str → Bool
  /-- The call `chdir(d)` in working directory `cwd`: the new working directory, or
  `none` when it fails. -/
  chdir : (cwd : Str) → (d : Str) → Option Str
  /-- Does the `fork()` issued when the log holds `t` events create a child. -/
  fork_ok : (t : Nat) → Bool
  /-- Does `execv(full_path, ...)` replace the program image. -/
  execv_ok : Str → Bool

/-- The state of a process running wish.c: the globals `search_paths` and
`num_paths`, the working directory, the bindings of descriptors 1 and 2, the
number of `fork`s between the interpreter and this process, the log, and the
exit code once the process has called `exit`. -/
structure Shell where
  search_paths : List Str
  num_paths : Nat
  cwd : Str
  out : Stream
  err : Stream
  depth : Nat
  trace : List Event
  halted : Option Nat
deriving DecidableEq, Repr

/-- Append an event of this process to the log. -/
def Shell.log (st : Shell) (e : Event) : Shell :=
  { st with trace := st.trace ++ [tag st.depth e] }

/-- The statement `write(STDERR_FILENO, error_message, strlen(error_message))`. -/
def Shell.report (st : Shell) : Shell :=
  st.log (Event.error st.err)

/-- The statement `exit(code)`. -/
def Shell.exit (st : Shell) (code : Nat) : Shell :=
  { st.log (Event.exit code) with halted := some code }

/-- The state main reaches before its loop (wish.c 31-36), started in working
directory `cwd`. -/
def initial (cwd : Str) : Shell :=
  { search_paths := ["/bin".toList]
    num_paths := 1
    cwd := cwd
    out := Stream.orig_stdout
    err := Stream.orig_stderr
    depth := 0
    trace := []
    halted := none }

/-! ## command_execute -/

/-- The call `snprintf(full_path, size, "%s/%s", dir, cmd)`: at most `size - 1`
characters of the formatted text are stored. -/
def snprintf_path (size : Nat) (dir cmd : Str) : Str :=
  (dir ++ '/' :: cmd).take (size - 1)

/-- The search loop `for (int i = 0; i < num_paths; i++)` of `command_execute`
(wish.c 163-172), from index `i` with `remaining = num_paths - i` iterations to go:
the first `full_path` for which `access(full_path, X_OK) == 0`. -/
def search_loop (os : OS) (search_paths : List Str) (cmd : Str) : (remaining : Nat) → (i : Nat) → Option Str
  | 0, _ => none
  | remaining + 1, i =>
    let full_path := snprintf_path 1024 (search_paths.getD i []) cmd
    if os.access_x full_path then some full_path
    else search_loop os search_paths cmd remaining (i + 1)

/-- The branch `pid == 0` of `command_execute` (wish.c 158-176), run in the child.
When `args[0]` is NULL the search loop hands that pointer to `snprintf` in its
first iteration; with `num_paths = 0` the loop has no iteration and the child
goes on to the error report and `exit(1)`. -/
def command_execute_child (os : OS) (st : Shell) (args : List Str) : Shell :=
  match args with
  | [] => if st.num_paths = 0 then st.report.exit 1 else st.log Event.null_command
  | cmd :: _ =>
    match search_loop os st.search_paths cmd st.num_paths 0 with
    | some full_path =>
      if os.execv_ok full_path then
        st.log (Event.execv full_path args st.out st.err true)
      else
        ((st.log (Event.execv full_path args st.out st.err false)).report).exit 1
    | none => st.report.exit 1

/-- The function `command_execute` (wish.c 154-184). -/
def command_execute (os : OS) (st : Shell) (args : List Str) : Shell :=
  let st0 := st.log (Event.call Fn.command_execute args)
  if os.fork_ok st0.trace.length then
    let child := command_execute_child os
      { st0.log (Event.fork args true) with depth := st0.depth + 1 } args
    { st0 with trace := child.trace }.log Event.wait
  else
    (st0.log (Event.fork args false)).report

/-! ## command_cd and command_path -/

/-- The function `command_cd` (wish.c 187-195). -/
def command_cd (os : OS) (st : Shell) (args : List Str) : Shell :=
  let st0 := st.log (Event.call Fn.command_cd args)
  if args[1]? = none ∨ args[2]? ≠ none then st0.report
  else
    let d := args.getD 1 []
    match os.chdir st0.cwd d with
    | some cwd1 => { st0.log (Event.chdir d true) with cwd := cwd1 }
    | none => (st0.log (Event.chdir d false)).report

/-- The loop `while (args[num_paths + 1] != NULL) num_paths++` of `command_path`
(wish.c 207-209); the first argument bounds the number of iterations. -/
def count_loop (args : List Str) : Nat → Nat → Nat
  | 0, num_paths => num_paths
  | fuel + 1, num_paths =>
    if args[num_paths + 1]? ≠ none then count_loop args fuel (num_paths + 1) else num_paths

/-- The function `command_path` (wish.c 198-216). -/
def command_path (st : Shell) (args : List Str) : Shell :=
  let st0 := st.log (Event.call Fn.command_path args)
  let num_paths := count_loop args args.length 0
  { st0 with
    num_paths := num_paths
    search_paths := (List.range num_paths).map (fun i => args.getD (i + 1) []) }

/-! ## handle_redirection -/

/-- The loop `while (args[i] != NULL)` of `handle_redirection` (wish.c 221-242)
from index `i`; the first argument bounds the number of iterations.  The result
is the return value, the vector `args` as the function leaves it, and the state. -/
def redirection_loop (os : OS) : Nat → Nat → List Str → Shell → Int × List Str × Shell
  | 0, _, args, st => (0, args, st)
  | fuel + 1, i, args, st =>
    match args[i]? with
    | none => (0, args, st)
    | some a =>
      if a = ['>'] then
        if args[i + 1]? = none ∨ args[i + 2]? ≠ none then (-1, args, st.report)
        else
          let f := args.getD (i + 1) []
          if os.open_ok f then
            (0, args.take i,
              { (st.log (Event.open_file f true)).log (Event.redirect f) with
                out := Stream.file f, err := Stream.file f })
          else (-1, args, (st.log (Event.open_file f false)).report)
      else redirection_loop os fuel (i + 1) args st

/-- The function `handle_redirection` (wish.c 219-244). -/
def handle_redirection (os : OS) (st : Shell) (args : List Str) : Int × List Str × Shell :=
  redirection_loop os args.length 0 args (st.log (Event.call Fn.handle_redirection args))

/-! ## handle_parallel_commands -/

/-- The loop `while (command != NULL && i < 64 - 1)` of `handle_parallel_commands`
(wish.c 252-255): the entries `commands[0 .. i)`.  The first argument bounds the
number of iterations. -/
def commands_loop : Nat → Option (Str × Str) → List Str → List Str
  | 0, _, commands => commands
  | _ + 1, none, commands => commands
  | fuel + 1, some (command, rest), commands =>
    if commands.length < 64 - 1 then
      commands_loop fuel (strtok ['&'] rest) (commands ++ [command])
    else commands

/-- The code a child forked by `handle_parallel_commands` runs (wish.c 263-265). -/
def segment_child (os : OS) (st : Shell) (args : List Str) : Shell :=
  let r := handle_redirection os st args
  (command_execute os r.2.2 r.2.1).exit 0

/-- The loop `for (int j = 0; j < i; j++)` over the segments (wish.c 258-269). -/
def spawn_loop (os : OS) : List Str → Shell → Shell
  | [], st => st
  | command :: commands, st =>
    let args := (split_to_args command).tokens
    match args with
    | [] => spawn_loop os commands st
    | _ :: _ =>
      if os.fork_ok st.trace.length then
        let child := segment_child os
          { st.log (Event.fork args true) with depth := st.depth + 1 } args
        spawn_loop os commands { st with trace := child.trace }
      else
        spawn_loop os commands (st.log (Event.fork args false))

/-- The loop `for (int j = 0; j < i; j++) wait(NULL)` (wish.c 271-273). -/
def wait_loop : Nat → Shell → Shell
  | 0, st => st
  | i + 1, st => wait_loop i (st.log Event.wait)

/-- The function `handle_parallel_commands` (wish.c 247-274). -/
def handle_parallel_commands (os : OS) (st : Shell) (line : Str) : Shell :=
  let st0 := st.log (Event.call Fn.handle_parallel_commands [line])
  let commands := commands_loop (line.length + 1) (strtok ['&'] line) []
  wait_loop commands.length (spawn_loop os commands st0)

/-! ## main -/

/-- The statement `if (line[len - 1] == '\n') line[len - 1] = '\0'` (wish.c 67-69)
on the text `getline` returned. -/
def strip_newline (raw : Str) : Str :=
  if raw.getLast? = some '\n' then raw.dropLast else raw

/-- The body of the loop of main after the newline is removed (wish.c 71-110), for
one line. -/
def run_line (os : OS) (st : Shell) (line : Str) : Shell :=
  if '&' ∈ line then handle_parallel_commands os st line
  else
    let args := (split_to_args line).tokens
    match args with
    | [] => st
    | a0 :: _ =>
      if a0 = "exit".toList then
        if args[1]? ≠ none then st.report else st.exit 0
      else if a0 = "cd".toList then command_cd os st args
      else if a0 = "path".toList then command_path st args
      else
        let saved_stdout := st.out
        let saved_stderr := st.err
        let r := handle_redirection os st args
        let st2 := if r.1 = 0 then command_execute os r.2.2 r.2.1 else r.2.2
        { st2 with out := saved_stdout, err := saved_stderr }

/-- The loop of main (wish.c 57-111) on the successive results of `getline`, each
with the answers of the operating system while it is processed; when the input
is exhausted `getline` returns -1 and main calls `exit(0)`. -/
def main_loop : Shell → List (OS × Str) → Shell
  | st, [] => st.exit 0
  | st, (os, raw) :: rest =>
    let st1 := run_line os st (strip_newline raw)
    if st1.halted.isSome then st1 else main_loop st1 rest

/-! ## Specification-side definitions -/

/-- Specification side of the tokenizer: the line is split at every space and
tab, and the empty fields are discarded. -/
def spec_fields (line : Str) : List Str :=
  (line.splitOnP (fun c => c == ' ' || c == '\t')).filter (fun t => t ≠ [])

/-- Specification side of the coordinator: the line is split at every `&`, each
segment is tokenized, and the segments without a token are skipped. -/
def spec_spawns (line : Str) : List (List Str) :=
  ((line.splitOnP (fun c => c == '&')).map spec_fields).filter (fun v => v ≠ [])

/-- The commands for which the process itself (not a child of it) called `fork`,
in the order of the log. -/
def forks_of (trace : List Event) : List (List Str) :=
  trace.filterMap (fun e => match e with
    | Event.fork args _ => some args
    | _ => none)

/-- An operating system in which only `/bin/ls` is executable and every other
call succeeds; `chdir` moves to the directory named. -/
def os_ls : OS :=
  { access_x := fun p => p == "/bin/ls".toList
    open_ok := fun _ => true
    chdir := fun _ d => some d
    fork_ok := fun _ => true
    execv_ok := fun _ => true }

/-- The events a state has logged beyond those of an earlier state. -/
def new_events (st st1 : Shell) : List Event :=
  st1.trace.drop st.trace.length

/-- The events that only the redirection resolver, the executor or the coordinator
produce: their entry, `open`, the redirection of descriptors 1 and 2, `fork`,
`execv`, `wait`, and every event of a child. -/
def Event.beyond_builtin : Event → Bool
  | Event.call Fn.handle_redirection _ => true
  | Event.call Fn.command_execute _ => true
  | Event.call Fn.handle_parallel_commands _ => true
  | Event.open_file _ _ => true
  | Event.redirect _ => true
  | Event.fork _ _ => true
  | Event.execv _ _ _ _ _ => true
  | Event.null_command => true
  | Event.wait => true
  | Event.in_child _ => true
  | _ => false

/-- The later state is the earlier one of the same process with more events
logged, each of them satisfying `P`. -/
def GrowsBy (P : Event → Prop) (st st1 : Shell) : Prop :=
  st1.depth = st.depth ∧ ∃ more, st1.trace = st.trace ++ more ∧ ∀ e ∈ more, P e

/-- The event belongs to a process at least `d` levels of `fork` below the interpreter. -/
def deep (d : Nat) (e : Event) : Prop :=
  ∃ e0, e = tag d e0

/-- The line `a&a&...a&` with `n` segments `a`. -/
def many_segments : Nat → Str
  | 0 => []
  | n + 1 => 'a' :: '&' :: many_segments n

/-- The events the interpreter itself logs while `handle_parallel_commands` runs: the
entry of the function, `fork`, `wait`, and the events of children. -/
def Event.of_coordinator : Event → Bool
  | Event.call Fn.handle_parallel_commands _ => true
  | Event.fork _ _ => true
  | Event.wait => true
  | Event.in_child _ => true
  | _ => false

/-- An operating system in which every file is executable and every call succeeds. -/
def os_all : OS :=
  { access_x := fun _ => true
    open_ok := fun _ => true
    chdir := fun _ d => some d
    fork_ok := fun _ => true
    execv_ok := fun _ => true }

/-- A command name of 1019 characters: with the directory `/bin` the text
`/bin/<name>` has 1024 characters, one more than `full_path` can hold. -/
def long_name : Str := List.replicate 1019 'a'

/-- The line `a a ... a ` with `n` tokens `a`, each followed by a blank. -/
def many_tokens : Nat → Str
  | 0 => []
  | n + 1 => 'a' :: ' ' :: many_tokens n

/-- The capacity of the token array while `position` tokens are stored: 64 at the
start, 64 more each time `position` reaches the capacity. -/
def capacity_at (position : Nat) : Nat :=
  64 * (position / 64 + 1)

/-- The event under its `in_child` wrappers. -/
def Event.core : Event → Event
  | Event.in_child e => Event.core e
  | Event.call fn args => Event.call fn args
  | Event.error dest => Event.error dest
  | Event.open_file f ok => Event.open_file f ok
  | Event.redirect f => Event.redirect f
  | Event.chdir d ok => Event.chdir d ok
  | Event.fork args ok => Event.fork args ok
  | Event.execv p args out err ok => Event.execv p args out err ok
  | Event.null_command => Event.null_command
  | Event.wait => Event.wait
  | Event.exit code => Event.exit code

/-- The events of the built-ins `cd` and `path`, in whatever process: the entry of
`command_cd` or `command_path`, and `chdir`. -/
def Event.is_builtin (e : Event) : Bool :=
  match e.core with
  | Event.call Fn.command_cd _ => true
  | Event.call Fn.command_path _ => true
  | Event.chdir _ _ => true
  | _ => false

/-- The event was logged by a process at least `d` levels of `fork` below the
interpreter, and what that process did satisfies `K`. -/
def logged_by (K : Event → Prop) (d : Nat) (e : Event) : Prop :=
  ∃ k e0, d ≤ k ∧ e = tag k e0 ∧ K e0

/-- What `handle_redirection` does in a process whose descriptor 2 is bound to `err`. -/
def redir_event (err : Stream) (e : Event) : Prop :=
  (∃ args, e = Event.call Fn.handle_redirection args) ∨ e = Event.error err ∨
    (∃ f ok, e = Event.open_file f ok) ∨ ∃ f, e = Event.redirect f

/-- What `command_execute` and the child it forks do, called on `args` in a process
whose descriptors 1 and 2 are bound to `out` and `err`. -/
def exec_event (out err : Stream) (args : List Str) (e : Event) : Prop :=
  e = Event.call Fn.command_execute args ∨ (∃ ok, e = Event.fork args ok) ∨
    (∃ p ok, e = Event.execv p args out err ok) ∨ e = Event.error err ∨
    e = Event.exit 1 ∨ e = Event.null_command ∨ e = Event.wait

/-- The search path reached by the interpreter is well formed: no entry is empty
or holds a space or a tab, and `num_paths` is the number of entries. -/
def path_ok (st : Shell) : Prop :=
  (∀ p ∈ st.search_paths, p ≠ [] ∧ ' ' ∉ p ∧ '\t' ∉ p) ∧ st.num_paths = st.search_paths.length

/-- The states of the interpreter at the top of the loop of main: the initial
state, and the state after one more line read while the interpreter runs. -/
inductive Reachable : Shell → Prop where
  | start (cwd : Str) : Reachable (initial cwd)
  | step (os : OS) (st : Shell) (raw : Str) :
      Reachable st → st.halted = none → Reachable (run_line os st (strip_newline raw))

/-- The number of entries of `command_execute` logged by children of the process. -/
def executor_calls (trace : List Event) : Nat :=
  trace.countP (fun e => match e with
    | Event.in_child (Event.call Fn.command_execute _) => true
    | _ => false)

/-- The number of children the process itself created: its successful forks. -/
def children_created (trace : List Event) : Nat :=
  trace.countP (fun e => match e with
    | Event.fork _ true => true
    | _ => false)

/-- The vector on which a child of the process entered `command_execute`, when the
event is such an entry. -/
def executor_arg : Event → Option (List Str)
  | Event.in_child (Event.call Fn.command_execute args) => some args
  | _ => none

/-- The vectors on which children of the process entered `command_execute`, in the
order of the log. -/
def executor_args (trace : List Event) : List (List Str) :=
  trace.filterMap executor_arg

/-- What the interpreter logs for one segment with token vector `args`: a failed
fork alone; or a successful fork followed by the events of the child created by
it, among which there is exactly one entry of `command_execute`, on the vector
`handle_redirection` leaves of `args`. -/
def segment_block (os : OS) (st : Shell) (args : List Str) (block : List Event) : Prop :=
  block = [Event.fork args false] ∨
  ∃ child, block = Event.fork args true :: child ∧
    (∀ e ∈ child, ∃ e0, e = Event.in_child e0) ∧
    executor_args child = [(handle_redirection os st args).2.1]

/-! ## The tokenizer: strtok against splitting at delimiters -/

/-- The non-empty fields of `s` when it is split at the characters satisfying `p`. -/
def fields (p : Char → Bool) (s : Str) : List Str :=
  (s.splitOnP p).filter (fun t => t ≠ [])

theorem fields_nil (p : Char → Bool) : fields p [] = [] := by
  simp [fields, List.splitOnP_nil]

theorem fields_cons_delim (p : Char → Bool) (c : Char) (cs : Str) (h : p c = true) :
    fields p (c :: cs) = fields p cs := by
  simp [fields, List.splitOnP_cons, h]

theorem splitOnP_scan_token (p : Char → Bool) (delim : Str)
    (hp : ∀ c, p c = true ↔ c ∈ delim) (s : Str) :
    ∃ T, s.splitOnP p = (scan_token delim s).1 :: T ∧
      T.filter (fun t => t ≠ []) = fields p (scan_token delim s).2 := by
  induction s with
  | nil => exact ⟨[], by simp [List.splitOnP_nil, scan_token], by simp [scan_token, fields_nil]⟩
  | cons c cs ih =>
    by_cases hc : c ∈ delim
    · refine ⟨cs.splitOnP p, ?_, ?_⟩
      · simp [List.splitOnP_cons, (hp c).2 hc, scan_token, hc]
      · simp [scan_token, hc, fields]
    · obtain ⟨T, hT, hF⟩ := ih
      have hpc : p c = false := by
        cases h : p c with
        | false => rfl
        | true => exact absurd ((hp c).1 h) hc
      refine ⟨T, ?_, ?_⟩
      · simp [List.splitOnP_cons, hpc, scan_token, hc, hT]
      · simpa [scan_token, hc] using hF

theorem scan_token_no_delim (delim : Str) (s : Str) :
    ∀ c ∈ (scan_token delim s).1, c ∉ delim := by
  induction s with
  | nil => simp [scan_token]
  | cons c cs ih =>
    by_cases hc : c ∈ delim
    · simp [scan_token, hc]
    · intro x hx
      simp only [scan_token, hc, if_false, List.mem_cons] at hx
      rcases hx with rfl | hx
      · exact hc
      · exact ih x hx

theorem scan_token_length (delim : Str) (s : Str) :
    (scan_token delim s).2.length ≤ s.length := by
  induction s with
  | nil => simp [scan_token]
  | cons c cs ih =>
    by_cases hc : c ∈ delim
    · simp [scan_token, hc]
    · simp only [scan_token, hc, if_false, List.length_cons]
      omega

theorem skip_delims_length (delim : Str) (s : Str) :
    (skip_delims delim s).length ≤ s.length := by
  induction s with
  | nil => simp [skip_delims]
  | cons c cs ih =>
    by_cases hc : c ∈ delim
    · simp only [skip_delims, hc, if_true, List.length_cons]; omega
    · simp [skip_delims, hc]

theorem skip_delims_head (delim : Str) (s : Str) (c : Char) (cs : Str)
    (h : skip_delims delim s = c :: cs) : c ∉ delim := by
  induction s with
  | nil => simp [skip_delims] at h
  | cons d ds ih =>
    by_cases hd : d ∈ delim
    · simp only [skip_delims, hd, if_true] at h
      exact ih h
    · simp only [skip_delims, hd, if_false, List.cons.injEq] at h
      exact h.1 ▸ hd

theorem fields_skip_delims (p : Char → Bool) (delim : Str)
    (hp : ∀ c, p c = true ↔ c ∈ delim) (s : Str) :
    fields p (skip_delims delim s) = fields p s := by
  induction s with
  | nil => simp [skip_delims]
  | cons c cs ih =>
    by_cases hc : c ∈ delim
    · simp only [skip_delims, hc, if_true]
      rw [ih, fields_cons_delim p c cs ((hp c).2 hc)]
    · simp [skip_delims, hc]

theorem skip_delims_eq_nil_iff (delim : Str) (s : Str) :
    skip_delims delim s = [] ↔ ∀ c ∈ s, c ∈ delim := by
  induction s with
  | nil => simp [skip_delims]
  | cons c cs ih =>
    by_cases hc : c ∈ delim
    · simp [skip_delims, hc, ih]
    · simp [skip_delims, hc]

/-- A NULL result of `strtok`: exactly when only delimiters are left. -/
theorem strtok_eq_none_iff (delim : Str) (s : Str) :
    strtok delim s = none ↔ ∀ c ∈ s, c ∈ delim := by
  rw [← skip_delims_eq_nil_iff]
  unfold strtok
  cases h : skip_delims delim s with
  | nil => simp
  | cons c cs => simp

theorem strtok_none_fields (p : Char → Bool) (delim : Str)
    (hp : ∀ c, p c = true ↔ c ∈ delim) (s : Str) (h : strtok delim s = none) :
    fields p s = [] := by
  have h1 : skip_delims delim s = [] := (skip_delims_eq_nil_iff delim s).2
    ((strtok_eq_none_iff delim s).1 h)
  rw [← fields_skip_delims p delim hp s, h1, fields_nil]

/-- A token returned by `strtok` is the first non-empty field of the text, it is
not empty, holds no delimiter, and the text left is shorter. -/
theorem strtok_some_fields (p : Char → Bool) (delim : Str)
    (hp : ∀ c, p c = true ↔ c ∈ delim) (s token rest : Str)
    (h : strtok delim s = some (token, rest)) :
    fields p s = token :: fields p rest ∧ token ≠ [] ∧ (∀ c ∈ token, c ∉ delim) ∧
      rest.length < s.length := by
  unfold strtok at h
  cases hs : skip_delims delim s with
  | nil => simp [hs] at h
  | cons c cs =>
    simp only [hs, Option.some.injEq] at h
    have hc : c ∉ delim := skip_delims_head delim s c cs hs
    have htok : token = (scan_token delim (c :: cs)).1 := by rw [h]
    have hrest : rest = (scan_token delim (c :: cs)).2 := by rw [h]
    have hne : token ≠ [] := by
      rw [htok]; simp [scan_token, hc]
    obtain ⟨T, hT, hF⟩ := splitOnP_scan_token p delim hp (c :: cs)
    refine ⟨?_, hne, ?_, ?_⟩
    · rw [← fields_skip_delims p delim hp s, hs]
      show List.filter _ ((c :: cs).splitOnP p) = _
      rw [hT, ← htok, List.filter_cons_of_pos (by simpa using hne), hF, ← hrest]
    · rw [htok]; exact scan_token_no_delim delim (c :: cs)
    · have h1 := scan_token_length delim (c :: cs)
      have h2 := skip_delims_length delim s
      have h3 : (scan_token delim (c :: cs)).2.length ≤ cs.length := by
        simp only [scan_token, hc, if_false]
        exact scan_token_length delim cs
      rw [hrest]
      rw [hs] at h2
      simp only [List.length_cons] at h2
      omega

theorem blank_iff (c : Char) : (c == ' ' || c == '\t') = true ↔ c ∈ blanks := by
  simp [blanks]

theorem spec_fields_eq (line : Str) :
    spec_fields line = fields (fun c => c == ' ' || c == '\t') line := rfl

/-- The loop of `split_to_args` appends the fields of the text still to be
scanned, and advances `position` by their number. -/
theorem split_loop_spec (fuel : Nat) (s : Str) (b : TokenBuf) (hfuel : s.length < fuel) :
    (split_loop fuel (strtok blanks s) b).tokens = b.tokens ++ spec_fields s ∧
    (split_loop fuel (strtok blanks s) b).position = b.position + (spec_fields s).length := by
  induction fuel generalizing s b with
  | zero => omega
  | succ fuel ih =>
    cases h : strtok blanks s with
    | none =>
      have := strtok_none_fields _ blanks blank_iff s h
      rw [spec_fields_eq, this]
      simp [split_loop]
    | some tr =>
      obtain ⟨token, rest⟩ := tr
      obtain ⟨hf, -, -, hlen⟩ := strtok_some_fields _ blanks blank_iff s token rest h
      have hr : rest.length < fuel := by omega
      rw [spec_fields_eq, hf, ← spec_fields_eq]
      simp only [split_loop]
      split_ifs
      · obtain ⟨h1, h2⟩ := ih rest _ hr
        rw [h1, h2]
        simp
        omega
      · obtain ⟨h1, h2⟩ := ih rest _ hr
        rw [h1, h2]
        simp
        omega

theorem split_to_args_tokens (line : Str) : (split_to_args line).tokens = spec_fields line := by
  have := (split_loop_spec (line.length + 1) line
    { tokens := [], position := 0, bufsize := 64, writes := [] } (by omega)).1
  simpa [split_to_args] using this

theorem split_to_args_position (line : Str) :
    (split_to_args line).position = (spec_fields line).length := by
  have := (split_loop_spec (line.length + 1) line
    { tokens := [], position := 0, bufsize := 64, writes := [] } (by omega)).2
  simpa [split_to_args] using this

theorem splitOnP_no_delim (p : Char → Bool) (s : Str) :
    ∀ t ∈ s.splitOnP p, ∀ c ∈ t, p c = false := by
  induction s with
  | nil => simp [List.splitOnP_nil]
  | cons d ds ih =>
    intro t ht c hc
    rw [List.splitOnP_cons] at ht
    by_cases hd : p d = true
    · simp only [hd, if_true, List.mem_cons] at ht
      rcases ht with rfl | ht
      · simp at hc
      · exact ih t ht c hc
    · simp only [hd] at ht
      cases hL : ds.splitOnP p with
      | nil => exact absurd hL (List.splitOnP_ne_nil p ds)
      | cons x xs =>
        rw [hL] at ht ih
        simp only [Bool.false_eq_true, if_false, List.modifyHead_cons, List.mem_cons] at ht
        rcases ht with rfl | ht
        · simp only [List.mem_cons] at hc
          rcases hc with rfl | hc
          · simpa using hd
          · exact ih x (List.mem_cons_self _ _) c hc
        · exact ih t (List.mem_cons_of_mem _ ht) c hc

theorem spec_fields_mem (line : Str) (t : Str) (ht : t ∈ spec_fields line) :
    t ≠ [] ∧ ' ' ∉ t ∧ '\t' ∉ t := by
  simp only [spec_fields, List.mem_filter, decide_eq_true_eq] at ht
  obtain ⟨hm, hne⟩ := ht
  refine ⟨hne, ?_, ?_⟩
  · intro hc
    have := splitOnP_no_delim _ line t hm ' ' hc
    simp at this
  · intro hc
    have := splitOnP_no_delim _ line t hm '\t' hc
    simp at this

theorem spec_fields_eq_nil_iff (line : Str) :
    spec_fields line = [] ↔ ∀ c ∈ line, c = ' ' ∨ c = '\t' := by
  have hb : (∀ c ∈ line, c ∈ blanks) ↔ ∀ c ∈ line, c = ' ' ∨ c = '\t' := by
    simp [blanks]
  rw [← hb, ← strtok_eq_none_iff]
  constructor
  · intro h
    cases hs : strtok blanks line with
    | none => rfl
    | some tr =>
      obtain ⟨token, rest⟩ := tr
      have := (strtok_some_fields _ blanks blank_iff line token rest hs).1
      rw [spec_fields_eq] at h
      rw [h] at this
      simp at this
  · intro h
    exact strtok_none_fields _ blanks blank_iff line h

/-- C1: for every line, `split_to_args` returns exactly the non-empty fields of the
line split at spaces and tabs, in order; `argc` is their number; no token is
empty or holds a space or a tab; the vector is empty exactly when the line
holds nothing but spaces and tabs; and `"  ls   -l "` gives `["ls", "-l"]`. -/
theorem split_to_args_maximal_runs (line : Str) :
    (split_to_args line).tokens = spec_fields line ∧
    (split_to_args line).position = (split_to_args line).tokens.length ∧
    (∀ t ∈ (split_to_args line).tokens, t ≠ [] ∧ ' ' ∉ t ∧ '\t' ∉ t) ∧
    ((split_to_args line).tokens = [] ↔ ∀ c ∈ line, c = ' ' ∨ c = '\t') ∧
    (split_to_args "  ls   -l ".toList).tokens = ["ls".toList, "-l".toList] := by
  refine ⟨split_to_args_tokens line, ?_, ?_, ?_, by decide⟩
  · rw [split_to_args_position, split_to_args_tokens]
  · rw [split_to_args_tokens]
    exact spec_fields_mem line
  · rw [split_to_args_tokens]
    exact spec_fields_eq_nil_iff line

/-- Witness of C1: on `a  b`, with a tab after the blanks, the vector is `["a", "b"]`
and `argc` is 2. -/
theorem split_to_args_maximal_runs_witness :
    (split_to_args ['a', ' ', ' ', '\t', 'b']).tokens = spec_fields ['a', ' ', ' ', '\t', 'b'] ∧
    (split_to_args ['a', ' ', ' ', '\t', 'b']).tokens = [['a'], ['b']] ∧
    (split_to_args ['a', ' ', ' ', '\t', 'b']).position = 2 :=
  ⟨(split_to_args_maximal_runs ['a', ' ', ' ', '\t', 'b']).1, by decide, by decide⟩

/-! ## The redirection resolver -/

theorem getElem?_append_add (pre l : List Str) (k : Nat) :
    (pre ++ l)[pre.length + k]? = l[k]? := by
  rw [List.getElem?_append_right (by omega)]
  congr 1
  omega

theorem getElem?_append_length (pre l : List Str) :
    (pre ++ l)[pre.length]? = l[0]? := by
  simpa using getElem?_append_add pre l 0

theorem redirection_loop_step (os : OS) (fuel i : Nat) (args : List Str) (st : Shell) (a : Str)
    (hi : args[i]? = some a) (ha : a ≠ ['>']) :
    redirection_loop os (fuel + 1) i args st = redirection_loop os fuel (i + 1) args st := by
  simp [redirection_loop, hi, ha]

/-- The loop of `handle_redirection` walks over tokens other than `>` without any effect. -/
theorem redirection_loop_skip (os : OS) (pre : List Str) (hpre : ∀ a ∈ pre, a ≠ ['>']) :
    ∀ (done post : List Str) (n : Nat) (st : Shell),
      redirection_loop os (pre.length + n) done.length (done ++ pre ++ post) st =
        redirection_loop os n (done.length + pre.length) (done ++ pre ++ post) st := by
  induction pre with
  | nil => intro done post n st; simp
  | cons a pre ih =>
    intro done post n st
    have hidx : (done ++ a :: pre ++ post)[done.length]? = some a := by
      rw [List.append_assoc, getElem?_append_length]; simp
    have hfuel : (a :: pre).length + n = (pre.length + n) + 1 := by
      simp only [List.length_cons]; omega
    rw [hfuel, redirection_loop_step os _ _ _ st a hidx (hpre a (List.mem_cons_self _ _))]
    have h := ih (fun x hx => hpre x (List.mem_cons_of_mem _ hx)) (done ++ [a]) post n st
    simp only [List.length_append, List.length_singleton, List.append_assoc,
      List.singleton_append] at h
    simp only [List.length_cons, List.append_assoc, List.cons_append] at h ⊢
    rw [h]
    congr 1
    omega

/-- A vector without a `>` token: `handle_redirection` returns 0 and changes nothing. -/
theorem handle_redirection_absent (os : OS) (st : Shell) (args : List Str)
    (h : ∀ a ∈ args, a ≠ ['>']) :
    handle_redirection os st args =
      (0, args, st.log (Event.call Fn.handle_redirection args)) := by
  have := redirection_loop_skip os args h [] [] 0 (st.log (Event.call Fn.handle_redirection args))
  simp only [List.nil_append, List.append_nil, List.length_nil, Nat.add_zero, Nat.zero_add] at this
  unfold handle_redirection
  rw [this]
  simp [redirection_loop]

/-- At the first `>`: the loop of `handle_redirection` started on `pre ++ > :: post`. -/
theorem handle_redirection_at_marker (os : OS) (st : Shell) (pre post : List Str)
    (hpre : ∀ a ∈ pre, a ≠ ['>']) :
    handle_redirection os st (pre ++ ['>'] :: post) =
      redirection_loop os (post.length + 1) pre.length (pre ++ ['>'] :: post)
        (st.log (Event.call Fn.handle_redirection (pre ++ ['>'] :: post))) := by
  have := redirection_loop_skip os pre hpre [] (['>'] :: post) (post.length + 1)
    (st.log (Event.call Fn.handle_redirection (pre ++ ['>'] :: post)))
  simp only [List.nil_append, List.length_nil, Nat.zero_add] at this
  unfold handle_redirection
  rw [← this]
  congr 1
  simp only [List.length_append, List.length_cons]

/-- C2: when the first `>` of the vector is followed by exactly one token `f` and
`open` of `f` succeeds, `handle_redirection` returns 0, leaves exactly the tokens
before the `>` in the vector, opens `f` and binds descriptors 1 and 2 to it. -/
theorem handle_redirection_success (os : OS) (st : Shell) (pre : List Str) (f : Str)
    (hpre : ∀ a ∈ pre, a ≠ ['>']) (hopen : os.open_ok f = true) :
    handle_redirection os st (pre ++ [['>'], f]) =
      (0, pre,
        { st with
          out := Stream.file f
          err := Stream.file f
          trace := st.trace ++
            [tag st.depth (Event.call Fn.handle_redirection (pre ++ [['>'], f])),
             tag st.depth (Event.open_file f true),
             tag st.depth (Event.redirect f)] }) := by
  rw [handle_redirection_at_marker os st pre [f] hpre]
  have h0 : (pre ++ [['>'], f])[pre.length]? = some ['>'] := by
    rw [getElem?_append_length]; rfl
  have h1 : (pre ++ [['>'], f])[pre.length + 1]? = some f := by
    rw [getElem?_append_add]; rfl
  have h2 : (pre ++ [['>'], f])[pre.length + 2]? = none := by
    rw [getElem?_append_add]; rfl
  have h3 : (pre ++ [['>'], f]).getD (pre.length + 1) [] = f := by
    simp [List.getD_eq_getElem?_getD, h1]
  simp [redirection_loop, h0, h1, h2, h3, hopen, Shell.log]

/-- Witness of C2: `["echo","hi",">","out.txt"]` gives `["echo","hi"]` and `out.txt`. -/
theorem handle_redirection_success_witness :
    handle_redirection os_ls (initial [])
        (["echo".toList, "hi".toList] ++ [['>'], "out.txt".toList]) =
      (0, ["echo".toList, "hi".toList],
        { initial [] with
          out := Stream.file "out.txt".toList
          err := Stream.file "out.txt".toList
          trace := (initial []).trace ++
            [tag (initial []).depth (Event.call Fn.handle_redirection
               (["echo".toList, "hi".toList] ++ [['>'], "out.txt".toList])),
             tag (initial []).depth (Event.open_file "out.txt".toList true),
             tag (initial []).depth (Event.redirect "out.txt".toList)] }) :=
  handle_redirection_success os_ls (initial []) ["echo".toList, "hi".toList] "out.txt".toList
    (by decide) (by decide)

/-- The guard of wish.c 223: zero or two-or-more tokens after the first `>`. -/
theorem handle_redirection_refuses (os : OS) (st : Shell) (pre post : List Str)
    (hpre : ∀ a ∈ pre, a ≠ ['>']) (hpost : post.length ≠ 1) :
    handle_redirection os st (pre ++ ['>'] :: post) =
      (-1, pre ++ ['>'] :: post,
        { st with
          trace := st.trace ++
            [tag st.depth (Event.call Fn.handle_redirection (pre ++ ['>'] :: post)),
             tag st.depth (Event.error st.err)] }) := by
  rw [handle_redirection_at_marker os st pre post hpre]
  have h0 : (pre ++ ['>'] :: post)[pre.length]? = some ['>'] := by
    rw [getElem?_append_length]; simp
  have hbad : (pre ++ ['>'] :: post)[pre.length + 1]? = none ∨
      (pre ++ ['>'] :: post)[pre.length + 2]? ≠ none := by
    match post, hpost with
    | [], _ => left; rw [getElem?_append_add]; rfl
    | [_], h => simp at h
    | _ :: b :: _, _ => right; rw [getElem?_append_add]; simp
  simp only [redirection_loop, h0]
  rw [if_pos trivial, if_pos hbad]
  simp [Shell.report, Shell.log]

/-- C3: when the first `>` of the vector is followed by no token or by two or more
tokens, `handle_redirection` returns -1, the vector is left as it was, and the
only effects are the log entry of the call and one error report: descriptors 1
and 2 keep their bindings and no `open` is issued. -/
theorem handle_redirection_malformed (os : OS) (st : Shell) (pre post : List Str)
    (hpre : ∀ a ∈ pre, a ≠ ['>']) (hpost : post.length ≠ 1) :
    handle_redirection os st (pre ++ ['>'] :: post) =
      (-1, pre ++ ['>'] :: post,
        { st with
          trace := st.trace ++
            [tag st.depth (Event.call Fn.handle_redirection (pre ++ ['>'] :: post)),
             tag st.depth (Event.error st.err)] }) ∧
    (∀ e ∈ new_events st (handle_redirection os st (pre ++ ['>'] :: post)).2.2,
      (∀ f ok, e ≠ tag st.depth (Event.open_file f ok)) ∧
      (∀ f, e ≠ tag st.depth (Event.redirect f))) := by
  have h := handle_redirection_refuses os st pre post hpre hpost
  refine ⟨h, ?_⟩
  rw [h]
  intro e he
  simp only [new_events, List.drop_left, List.mem_cons, List.mem_singleton,
    List.not_mem_nil, or_false] at he
  have hinj : ∀ (d : Nat) (x y : Event), tag d x = tag d y → x = y := by
    intro d
    induction d with
    | zero => intro x y hxy; exact hxy
    | succ d ih => intro x y hxy; exact ih x y (Event.in_child.inj hxy)
  rcases he with rfl | rfl
  · exact ⟨fun f ok hc => Event.noConfusion (hinj _ _ _ hc),
      fun f hc => Event.noConfusion (hinj _ _ _ hc)⟩
  · exact ⟨fun f ok hc => Event.noConfusion (hinj _ _ _ hc),
      fun f hc => Event.noConfusion (hinj _ _ _ hc)⟩

/-- Witness of C3: `["echo",">"]` and `["echo",">","a","b"]` are refused. -/
theorem handle_redirection_malformed_witness :
    handle_redirection os_ls (initial []) (["echo".toList] ++ ['>'] :: []) =
      (-1, ["echo".toList] ++ ['>'] :: [],
        { initial [] with
          trace := (initial []).trace ++
            [tag (initial []).depth (Event.call Fn.handle_redirection (["echo".toList] ++ ['>'] :: [])),
             tag (initial []).depth (Event.error (initial []).err)] }) ∧
    (handle_redirection os_ls (initial []) ["echo".toList, ">".toList, "a".toList, "b".toList]).1
      = -1 :=
  ⟨(handle_redirection_malformed os_ls (initial []) ["echo".toList] [] (by decide)
      (by decide)).1,
   by decide⟩

/-! ## Path resolution in command_execute -/

/-- The candidate the search loop forms for the directory at index `j`. -/
theorem search_loop_some_iff (os : OS) (sp : List Str) (cmd : Str) (n i : Nat) (p : Str) :
    search_loop os sp cmd n i = some p ↔
      ∃ k, k < n ∧ p = snprintf_path 1024 (sp.getD (i + k) []) cmd ∧ os.access_x p = true ∧
        ∀ j, j < k → os.access_x (snprintf_path 1024 (sp.getD (i + j) []) cmd) = false := by
  induction n generalizing i with
  | zero => simp [search_loop]
  | succ n ih =>
    by_cases hacc : os.access_x (snprintf_path 1024 (sp.getD i []) cmd) = true
    · simp only [search_loop, hacc, if_true, Option.some.injEq]
      constructor
      · intro h
        exact ⟨0, by omega, by simpa using h.symm, by simpa [← h] using hacc, by intro j hj; omega⟩
      · rintro ⟨k, -, hp, hk, hlt⟩
        cases k with
        | zero => simpa using hp.symm
        | succ k =>
          have := hlt 0 (by omega)
          simp only [Nat.add_zero] at this
          rw [this] at hacc
          exact absurd hacc (by simp)
    · have hfalse : os.access_x (snprintf_path 1024 (sp.getD i []) cmd) = false := by
        simpa using hacc
      simp only [search_loop, hfalse, Bool.false_eq_true, if_false]
      rw [ih (i + 1)]
      constructor
      · rintro ⟨k, hk, hp, hx, hlt⟩
        refine ⟨k + 1, by omega, ?_, hx, ?_⟩
        · rw [hp]; congr 2; omega
        · intro j hj
          cases j with
          | zero => simpa using hfalse
          | succ j =>
            have := hlt j (by omega)
            rw [← this]; congr 3; omega
      · rintro ⟨k, hk, hp, hx, hlt⟩
        cases k with
        | zero =>
          simp only [Nat.add_zero] at hp
          rw [hp] at hx
          rw [hx] at hfalse
          exact absurd hfalse (by simp)
        | succ k =>
          refine ⟨k, by omega, ?_, hx, ?_⟩
          · rw [hp]; congr 2; omega
          · intro j hj
            have := hlt (j + 1) (by omega)
            rw [← this]; congr 3; omega

theorem search_loop_none_iff (os : OS) (sp : List Str) (cmd : Str) (n i : Nat) :
    search_loop os sp cmd n i = none ↔
      ∀ k, k < n → os.access_x (snprintf_path 1024 (sp.getD (i + k) []) cmd) = false := by
  induction n generalizing i with
  | zero => simp [search_loop]
  | succ n ih =>
    by_cases hacc : os.access_x (snprintf_path 1024 (sp.getD i []) cmd) = true
    · simp only [search_loop, hacc, if_true]
      constructor
      · intro h; simp at h
      · intro h
        have := h 0 (by omega)
        simp only [Nat.add_zero] at this
        rw [this] at hacc
        exact absurd hacc (by simp)
    · have hfalse : os.access_x (snprintf_path 1024 (sp.getD i []) cmd) = false := by
        simpa using hacc
      simp only [search_loop, hfalse, Bool.false_eq_true, if_false]
      rw [ih (i + 1)]
      constructor
      · intro h k hk
        cases k with
        | zero => simpa using hfalse
        | succ k =>
          have := h k (by omega)
          rw [← this]; congr 3; omega
      · intro h k hk
        have := h (k + 1) (by omega)
        rw [← this]; congr 3; omega

theorem getD_of_getElem? (sp : List Str) (i : Nat) (dir : Str) (h : sp[i]? = some dir) :
    sp.getD i [] = dir := by
  simp [List.getD_eq_getElem?_getD, h]

/-- A candidate that fits the buffer is stored whole. -/
theorem snprintf_path_fits (dir cmd : Str) (h : dir.length + 1 + cmd.length ≤ 1023) :
    snprintf_path 1024 dir cmd = dir ++ '/' :: cmd := by
  unfold snprintf_path
  apply List.take_of_length_le
  simp only [List.length_append, List.length_cons]
  omega

/-- Counterexample to C4 as stated: with search path `["/bin"]`, every file
executable and a command name of 1019 characters, `/bin/<name>` is an executable
candidate, yet the file `command_execute` runs is another one: the first 1023
characters of `/bin/<name>`. -/
theorem search_loop_long_name :
    os_all.access_x ("/bin".toList ++ '/' :: long_name) = true ∧
    search_loop os_all ["/bin".toList] long_name 1 0 ≠ some ("/bin".toList ++ '/' :: long_name) ∧
    search_loop os_all ["/bin".toList] long_name 1 0 =
      some (("/bin".toList ++ '/' :: long_name).take 1023) := by
  have hrun : search_loop os_all ["/bin".toList] long_name 1 0 =
      some (("/bin".toList ++ '/' :: long_name).take 1023) := by
    simp only [search_loop, os_all, if_true, snprintf_path]
    rfl
  refine ⟨rfl, ?_, hrun⟩
  rw [hrun]
  intro h
  have hlen := congrArg List.length (Option.some.inj h)
  rw [List.length_take, List.length_append, List.length_cons, long_name,
    List.length_replicate] at hlen
  have h4 : "/bin".toList.length = 4 := rfl
  rw [h4] at hlen
  omega

/-- C4, amended: the search loop of `command_execute` returns the candidate of the
smallest index whose candidate is executable, where the candidate of directory
`dir` is the text `dir/name` cut to the 1023 characters `full_path` can hold (the
whole text when it fits); it returns nothing, and the child reports the error
and exits with 1, exactly when no directory has an executable candidate; a
candidate found is the file passed to `execv`. -/
theorem command_execute_first_match (os : OS) (st : Shell) (cmd : Str) (rest : List Str)
    (hwf : st.num_paths = st.search_paths.length) :
    (∀ p, search_loop os st.search_paths cmd st.num_paths 0 = some p ↔
      ∃ i dir, st.search_paths[i]? = some dir ∧ p = snprintf_path 1024 dir cmd ∧
        os.access_x p = true ∧
        ∀ (j : Nat) (d : Str), j < i → st.search_paths[j]? = some d →
          os.access_x (snprintf_path 1024 d cmd) = false) ∧
    (search_loop os st.search_paths cmd st.num_paths 0 = none ↔
      ∀ dir ∈ st.search_paths, os.access_x (snprintf_path 1024 dir cmd) = false) ∧
    (∀ p, search_loop os st.search_paths cmd st.num_paths 0 = some p →
      command_execute_child os st (cmd :: rest) =
        if os.execv_ok p then st.log (Event.execv p (cmd :: rest) st.out st.err true)
        else ((st.log (Event.execv p (cmd :: rest) st.out st.err false)).report).exit 1) ∧
    (search_loop os st.search_paths cmd st.num_paths 0 = none →
      command_execute_child os st (cmd :: rest) = st.report.exit 1) ∧
    (∀ dir, dir.length + 1 + cmd.length ≤ 1023 →
      snprintf_path 1024 dir cmd = dir ++ '/' :: cmd) := by
  refine ⟨?_, ?_, ?_, ?_, fun dir h => snprintf_path_fits dir cmd h⟩
  · intro p
    rw [search_loop_some_iff, hwf]
    constructor
    · rintro ⟨k, hk, hp, hx, hlt⟩
      have hget : st.search_paths[0 + k]? = some (st.search_paths.getD (0 + k) []) := by
        rw [List.getD_eq_getElem?_getD, List.getElem?_eq_getElem (by omega)]
        simp
      refine ⟨k, st.search_paths.getD (0 + k) [], by simpa using hget, hp, hx, ?_⟩
      intro j d hj hd
      have := hlt j hj
      rw [Nat.zero_add, getD_of_getElem? _ _ _ hd] at this
      exact this
    · rintro ⟨i, dir, hdir, hp, hx, hlt⟩
      have hi : i < st.search_paths.length := by
        by_contra hge
        rw [List.getElem?_eq_none (by omega)] at hdir
        simp at hdir
      refine ⟨i, hi, ?_, hx, ?_⟩
      · rw [Nat.zero_add, getD_of_getElem? _ _ _ hdir]; exact hp
      · intro j hj
        have hjl : j < st.search_paths.length := by omega
        have hget : st.search_paths[j]? = some (st.search_paths[j]) :=
          List.getElem?_eq_getElem hjl
        rw [Nat.zero_add, getD_of_getElem? _ _ _ hget]
        exact hlt j _ hj hget
  · rw [search_loop_none_iff, hwf]
    constructor
    · intro h dir hdir
      obtain ⟨i, hi, rfl⟩ := List.getElem_of_mem hdir
      have := h i hi
      rw [Nat.zero_add, getD_of_getElem? _ _ _ (List.getElem?_eq_getElem hi)] at this
      exact this
    · intro h k hk
      have hget : st.search_paths[k]? = some (st.search_paths[k]) :=
        List.getElem?_eq_getElem hk
      rw [Nat.zero_add, getD_of_getElem? _ _ _ hget]
      exact h _ (List.getElem_mem hk)
  · intro p hp
    simp only [command_execute_child, hp]
  · intro hp
    simp only [command_execute_child, hp]

/-- Witness of C4: with search path `["/usr/bin", "/bin"]` and only `/bin/ls`
executable, the loop skips `/usr/bin/ls` and returns `/bin/ls`. -/
theorem command_execute_first_match_witness :
    search_loop os_ls ["/usr/bin".toList, "/bin".toList] "ls".toList 2 0 = some "/bin/ls".toList ∧
    (search_loop os_ls ["/usr/bin".toList, "/bin".toList] "ls".toList 2 0 = none ↔
      ∀ dir ∈ ["/usr/bin".toList, "/bin".toList],
        os_ls.access_x (snprintf_path 1024 dir "ls".toList) = false) :=
  ⟨by decide,
   (command_execute_first_match os_ls
      { initial [] with search_paths := ["/usr/bin".toList, "/bin".toList], num_paths := 2 }
      "ls".toList [] rfl).2.1⟩

/-! ## The built-ins path and cd -/

/-- The counting loop of `command_path` stops at the NULL that ends the vector. -/
theorem count_loop_spec (name : Str) (as : List Str) (fuel k : Nat) (hk : k ≤ as.length) :
    count_loop (name :: as) fuel k = min (k + fuel) as.length := by
  induction fuel generalizing k with
  | zero => simp [count_loop, hk]
  | succ fuel ih =>
    by_cases hlt : k < as.length
    · have hsome : (name :: as)[k + 1]? ≠ none := by
        simp [List.getElem?_cons_succ, List.getElem?_eq_getElem hlt]
      rw [count_loop, if_pos hsome, ih (k + 1) (by omega)]
      omega
    · have hnone : (name :: as)[k + 1]? = none := by
        rw [List.getElem?_cons_succ, List.getElem?_eq_none (by omega)]
      rw [count_loop, if_neg (by simp [hnone])]
      omega

theorem count_loop_args (name : Str) (as : List Str) :
    count_loop (name :: as) (name :: as).length 0 = as.length := by
  rw [count_loop_spec name as _ 0 (by omega)]
  simp

theorem copy_args (name : Str) (as : List Str) :
    (List.range as.length).map (fun i => (name :: as).getD (i + 1) []) = as := by
  apply List.ext_getElem
  · simp
  · intro i h1 h2
    simp [List.getD_eq_getElem?_getD, List.getElem?_eq_getElem h2]

/-- C5: for every prior state and every argument list, `command_path` leaves the
search path equal to the arguments, in order and with duplicates kept, and
`num_paths` equal to their number; nothing else of the state changes and the
old search path plays no part.  With no argument the search path is empty, and
the search loop of `command_execute` then finds nothing for any command, so the
child reports the error and exits with 1. -/
theorem command_path_replaces (st : Shell) (name : Str) (as : List Str) :
    command_path st (name :: as) =
      { st with
        search_paths := as
        num_paths := as.length
        trace := st.trace ++ [tag st.depth (Event.call Fn.command_path (name :: as))] } ∧
    (command_path st [name]).search_paths = [] ∧
    (command_path st [name]).num_paths = 0 ∧
    (∀ (os : OS) (cmd : Str) (rest : List Str),
      search_loop os (command_path st [name]).search_paths cmd
        (command_path st [name]).num_paths 0 = none ∧
      command_execute_child os (command_path st [name]) (cmd :: rest) =
        (command_path st [name]).report.exit 1) := by
  have key : ∀ l : List Str, command_path st (name :: l) =
      { st with
        search_paths := l
        num_paths := l.length
        trace := st.trace ++ [tag st.depth (Event.call Fn.command_path (name :: l))] } := by
    intro l
    unfold command_path
    simp only [count_loop_args, copy_args, Shell.log]
  refine ⟨key as, ?_, ?_, ?_⟩
  · rw [key []]
  · rw [key []]; rfl
  · intro os cmd rest
    have h : search_loop os (command_path st [name]).search_paths cmd
        (command_path st [name]).num_paths 0 = none := by
      rw [key []]; rfl
    exact ⟨h, by simp only [command_execute_child, h]⟩

/-- Witness of C5: `path /bin /usr/bin /bin` on the initial state keeps the three
entries, the duplicate included. -/
theorem command_path_replaces_witness :
    command_path (initial []) ("path".toList :: ["/bin".toList, "/usr/bin".toList, "/bin".toList]) =
      { initial [] with
        search_paths := ["/bin".toList, "/usr/bin".toList, "/bin".toList]
        num_paths := [("/bin".toList : Str), "/usr/bin".toList, "/bin".toList].length
        trace := (initial []).trace ++ [tag (initial []).depth (Event.call Fn.command_path
          ("path".toList :: ["/bin".toList, "/usr/bin".toList, "/bin".toList]))] } :=
  (command_path_replaces (initial []) "path".toList
    ["/bin".toList, "/usr/bin".toList, "/bin".toList]).1

/-- C7: `command_cd` with no argument or with two or more arguments reports the
error once and never calls `chdir`, and the working directory stays; with exactly
one argument `d` it calls `chdir(d)` once, reports the error exactly when that
call fails, and on failure the working directory stays. -/
theorem command_cd_spec (os : OS) (st : Shell) (name : Str) (rest : List Str) :
    (rest.length ≠ 1 →
      command_cd os st (name :: rest) =
        { st with
          trace := st.trace ++
            [tag st.depth (Event.call Fn.command_cd (name :: rest)),
             tag st.depth (Event.error st.err)] }) ∧
    (∀ d cwd1, rest = [d] → os.chdir st.cwd d = some cwd1 →
      command_cd os st (name :: rest) =
        { st with
          cwd := cwd1
          trace := st.trace ++
            [tag st.depth (Event.call Fn.command_cd [name, d]),
             tag st.depth (Event.chdir d true)] }) ∧
    (∀ d, rest = [d] → os.chdir st.cwd d = none →
      command_cd os st (name :: rest) =
        { st with
          trace := st.trace ++
            [tag st.depth (Event.call Fn.command_cd [name, d]),
             tag st.depth (Event.chdir d false),
             tag st.depth (Event.error st.err)] }) := by
  refine ⟨?_, ?_, ?_⟩
  · intro hlen
    have hbad : (name :: rest)[1]? = none ∨ (name :: rest)[2]? ≠ none := by
      match rest, hlen with
      | [], _ => left; rfl
      | [_], h => simp at h
      | _ :: _ :: _, _ => right; simp
    unfold command_cd
    simp only [if_pos hbad]
    simp [Shell.report, Shell.log]
  · rintro d cwd1 rfl hch
    simp [command_cd, Shell.log, hch]
  · rintro d rfl hch
    simp [command_cd, Shell.log, Shell.report, hch]

/-- Witness of C7: `cd` alone and `cd a b` report the error without `chdir`; `cd /tmp`
changes the working directory to what `chdir` answers. -/
theorem command_cd_spec_witness :
    command_cd os_ls (initial []) ["cd".toList] =
      { initial [] with
        trace := [Event.call Fn.command_cd ["cd".toList], Event.error Stream.orig_stderr] } ∧
    (command_cd os_ls (initial []) ["cd".toList, "a".toList, "b".toList]).cwd = [] ∧
    command_cd os_ls (initial []) ["cd".toList, "/tmp".toList] =
      { initial [] with
        cwd := "/tmp".toList
        trace := [Event.call Fn.command_cd ["cd".toList, "/tmp".toList],
          Event.chdir "/tmp".toList true] } :=
  ⟨(command_cd_spec os_ls (initial []) "cd".toList []).1 (by decide),
   by rw [(command_cd_spec os_ls (initial []) "cd".toList ["a".toList, "b".toList]).1 (by decide)]; rfl,
   (command_cd_spec os_ls (initial []) "cd".toList ["/tmp".toList]).2.1 _ _ rfl rfl⟩

/-! ## How the log grows -/

theorem tag_deep (d : Nat) : ∀ (k : Nat) (e : Event), d ≤ k → deep d (tag k e) := by
  induction d with
  | zero => intro k e _; exact ⟨tag k e, rfl⟩
  | succ d ih =>
    intro k e hk
    cases k with
    | zero => omega
    | succ k =>
      obtain ⟨e0, h0⟩ := ih k e (by omega)
      exact ⟨e0, by simp only [tag, h0]⟩

theorem GrowsBy.refl (P : Event → Prop) (st : Shell) : GrowsBy P st st :=
  ⟨rfl, [], by simp, by simp⟩

theorem GrowsBy.trans {P : Event → Prop} {a b c : Shell} (h1 : GrowsBy P a b)
    (h2 : GrowsBy P b c) : GrowsBy P a c := by
  obtain ⟨hd1, m1, ht1, hp1⟩ := h1
  obtain ⟨hd2, m2, ht2, hp2⟩ := h2
  refine ⟨by rw [hd2, hd1], m1 ++ m2, by rw [ht2, ht1, List.append_assoc], ?_⟩
  intro e he
  rcases List.mem_append.1 he with h | h
  · exact hp1 e h
  · exact hp2 e h

theorem GrowsBy.mono {P Q : Event → Prop} {a b : Shell} (h : GrowsBy P a b)
    (hpq : ∀ e, P e → Q e) : GrowsBy Q a b := by
  obtain ⟨hd, m, ht, hp⟩ := h
  exact ⟨hd, m, ht, fun e he => hpq e (hp e he)⟩

theorem GrowsBy.new_events {P : Event → Prop} {a b : Shell} (h : GrowsBy P a b) :
    ∀ e ∈ new_events a b, P e := by
  obtain ⟨_, m, ht, hp⟩ := h
  intro e he
  simp only [Wish.new_events, ht, List.drop_left] at he
  exact hp e he

theorem new_events_append (st st1 : Shell) (more : List Event)
    (h : st1.trace = st.trace ++ more) : new_events st st1 = more := by
  simp [new_events, h]

theorem log_grows (P : Event → Prop) (st : Shell) (e : Event) (h : P (tag st.depth e)) :
    GrowsBy P st (st.log e) :=
  ⟨rfl, [tag st.depth e], rfl, by simpa using h⟩

theorem log_deep (d : Nat) (st : Shell) (e : Event) (hd : d ≤ st.depth) :
    GrowsBy (deep d) st (st.log e) :=
  log_grows _ st e (tag_deep d st.depth e hd)

theorem report_deep (d : Nat) (st : Shell) (hd : d ≤ st.depth) :
    GrowsBy (deep d) st st.report :=
  log_deep d st _ hd

theorem exit_deep (d : Nat) (st : Shell) (code : Nat) (hd : d ≤ st.depth) :
    GrowsBy (deep d) st (st.exit code) := by
  obtain ⟨h1, m, h2, h3⟩ := log_deep d st (Event.exit code) hd
  exact ⟨h1, m, h2, h3⟩

theorem redirection_loop_deep (os : OS) (d : Nat) (fuel : Nat) :
    ∀ (i : Nat) (args : List Str) (st : Shell), d ≤ st.depth →
      GrowsBy (deep d) st (redirection_loop os fuel i args st).2.2 := by
  induction fuel with
  | zero => intro i args st _; exact GrowsBy.refl _ st
  | succ fuel ih =>
    intro i args st hd
    unfold redirection_loop
    cases hi : args[i]? with
    | none => exact GrowsBy.refl _ st
    | some a =>
      simp only
      split_ifs
      · exact report_deep d st hd
      · have h1 := log_deep d st (Event.open_file (args.getD (i + 1) []) true) hd
        have h2 := log_deep d (st.log (Event.open_file (args.getD (i + 1) []) true))
          (Event.redirect (args.getD (i + 1) [])) hd
        obtain ⟨h3, m, h4, h5⟩ := h1.trans h2
        exact ⟨h3, m, h4, h5⟩
      · have h1 := log_deep d st (Event.open_file (args.getD (i + 1) []) false) hd
        exact h1.trans (report_deep d _ hd)
      · exact ih (i + 1) args st hd

theorem handle_redirection_deep (os : OS) (d : Nat) (st : Shell) (args : List Str)
    (hd : d ≤ st.depth) : GrowsBy (deep d) st (handle_redirection os st args).2.2 :=
  (log_deep d st _ hd).trans (redirection_loop_deep os d _ _ _ _ hd)

/-- The log after `handle_redirection` starts with the entry of the call. -/
theorem handle_redirection_first (os : OS) (st : Shell) (args : List Str) :
    ∃ more, (handle_redirection os st args).2.2.trace =
      st.trace ++ tag st.depth (Event.call Fn.handle_redirection args) :: more := by
  obtain ⟨_, m, h, _⟩ := redirection_loop_deep os 0 args.length 0 args
    (st.log (Event.call Fn.handle_redirection args)) (Nat.zero_le _)
  exact ⟨m, by unfold handle_redirection; rw [h]; simp [Shell.log]⟩

theorem command_execute_child_deep (os : OS) (d : Nat) (st : Shell) (args : List Str)
    (hd : d ≤ st.depth) : GrowsBy (deep d) st (command_execute_child os st args) := by
  unfold command_execute_child
  cases args with
  | nil =>
    simp only
    split_ifs
    · exact (report_deep d st hd).trans (exit_deep d _ 1 hd)
    · exact log_deep d st _ hd
  | cons cmd rest =>
    simp only
    cases search_loop os st.search_paths cmd st.num_paths 0 with
    | none => exact (report_deep d st hd).trans (exit_deep d _ 1 hd)
    | some full_path =>
      simp only
      split_ifs
      · exact log_deep d st _ hd
      · exact ((log_deep d st _ hd).trans (report_deep d _ hd)).trans (exit_deep d _ 1 hd)

theorem command_execute_deep (os : OS) (d : Nat) (st : Shell) (args : List Str)
    (hd : d ≤ st.depth) : GrowsBy (deep d) st (command_execute os st args) := by
  have h0 := log_deep d st (Event.call Fn.command_execute args) hd
  refine h0.trans ?_
  unfold command_execute
  simp only
  split_ifs
  · have hf := log_deep d (st.log (Event.call Fn.command_execute args)) (Event.fork args true) hd
    have hc := command_execute_child_deep os d
      { (st.log (Event.call Fn.command_execute args)).log (Event.fork args true) with
        depth := (st.log (Event.call Fn.command_execute args)).depth + 1 } args
      (by show d ≤ st.depth + 1; omega)
    obtain ⟨-, m1, ht1, hp1⟩ := hf
    obtain ⟨-, m2, ht2, hp2⟩ := hc
    have hparent : GrowsBy (deep d) (st.log (Event.call Fn.command_execute args))
        { st.log (Event.call Fn.command_execute args) with
          trace := (command_execute_child os
            { (st.log (Event.call Fn.command_execute args)).log (Event.fork args true) with
              depth := (st.log (Event.call Fn.command_execute args)).depth + 1 } args).trace } := by
      refine ⟨rfl, m1 ++ m2, ?_, ?_⟩
      · show (command_execute_child os _ args).trace = _
        rw [ht2]
        show ((st.log (Event.call Fn.command_execute args)).log (Event.fork args true)).trace ++ m2 = _
        rw [ht1, List.append_assoc]
      · intro e he
        rcases List.mem_append.1 he with h | h
        · exact hp1 e h
        · exact hp2 e h
    exact hparent.trans (log_deep d _ Event.wait hd)
  · exact (log_deep d (st.log (Event.call Fn.command_execute args)) (Event.fork args false)
      hd).trans (report_deep d _ hd)

theorem command_cd_builtin (os : OS) (st : Shell) (args : List Str) (hd : st.depth = 0) :
    GrowsBy (fun e => e.beyond_builtin = false) st (command_cd os st args) := by
  unfold command_cd
  have h0 : GrowsBy (fun e => e.beyond_builtin = false) st (st.log (Event.call Fn.command_cd args)) :=
    log_grows _ st _ (by rw [hd]; rfl)
  refine h0.trans ?_
  simp only
  split_ifs
  · exact log_grows _ _ _ (by show (tag st.depth _).beyond_builtin = false; rw [hd]; rfl)
  · cases os.chdir (st.log (Event.call Fn.command_cd args)).cwd (args.getD 1 []) with
    | none =>
      exact (log_grows _ _ _ (by show (tag st.depth _).beyond_builtin = false; rw [hd]; rfl)).trans
        (log_grows _ _ _ (by show (tag st.depth _).beyond_builtin = false; rw [hd]; rfl))
    | some cwd1 =>
      obtain ⟨h1, m, h2, h3⟩ := log_grows (fun e => e.beyond_builtin = false)
        (st.log (Event.call Fn.command_cd args)) (Event.chdir (args.getD 1 []) true)
        (by show (tag st.depth _).beyond_builtin = false; rw [hd]; rfl)
      exact ⟨h1, m, h2, h3⟩

theorem command_path_builtin (st : Shell) (args : List Str) (hd : st.depth = 0) :
    GrowsBy (fun e => e.beyond_builtin = false) st (command_path st args) := by
  obtain ⟨h1, m, h2, h3⟩ := log_grows (fun e => e.beyond_builtin = false) st
    (Event.call Fn.command_path args) (by rw [hd]; rfl)
  exact ⟨h1, m, h2, h3⟩

/-! ## Dispatch in main -/

/-- A line without `&` and with at least one token: what the body of the loop of
main does with it. -/
theorem run_line_single (os : OS) (st : Shell) (line : Str) (a0 : Str) (rest : List Str)
    (hamp : '&' ∉ line) (htok : (split_to_args line).tokens = a0 :: rest) :
    run_line os st line =
      if a0 = "exit".toList then
        if rest ≠ [] then st.report else st.exit 0
      else if a0 = "cd".toList then command_cd os st (a0 :: rest)
      else if a0 = "path".toList then command_path st (a0 :: rest)
      else
        { (if (handle_redirection os st (a0 :: rest)).1 = 0 then
            command_execute os (handle_redirection os st (a0 :: rest)).2.2
              (handle_redirection os st (a0 :: rest)).2.1
          else (handle_redirection os st (a0 :: rest)).2.2) with
          out := st.out, err := st.err } := by
  unfold run_line
  rw [if_neg hamp]
  simp only [htok]
  cases rest with
  | nil => simp
  | cons b bs => simp

/-- The log after the external path of main: it starts with the entry of
`handle_redirection`. -/
theorem external_path_first (os : OS) (st : Shell) (args : List Str) (hd : st.depth = 0) :
    ∃ more, (if (handle_redirection os st args).1 = 0 then
        command_execute os (handle_redirection os st args).2.2 (handle_redirection os st args).2.1
      else (handle_redirection os st args).2.2).trace =
      st.trace ++ Event.call Fn.handle_redirection args :: more := by
  obtain ⟨m1, h1⟩ := handle_redirection_first os st args
  rw [hd] at h1
  split_ifs
  · obtain ⟨-, m2, h2, -⟩ := command_execute_deep os 0 (handle_redirection os st args).2.2
      (handle_redirection os st args).2.1 (Nat.zero_le _)
    exact ⟨m1 ++ m2, by rw [h2, h1]; simp [tag]⟩
  · exact ⟨m1, by rw [h1]; simp [tag]⟩

/-- C6: a line without `&` and with at least one token is handled by a built-in,
logging no event of the redirection resolver, of the executor or of a child (no
`open`, no redirection, no `fork`), exactly when its first token is `exit`, `cd` or
`path`; the built-in gets the whole vector, `>` tokens included.  Any other line
goes to `handle_redirection` and, when that returns 0, to `command_execute`. -/
theorem run_line_builtin_dispatch (os : OS) (st : Shell) (line : Str) (a0 : Str)
    (rest : List Str) (hamp : '&' ∉ line) (htok : (split_to_args line).tokens = a0 :: rest)
    (hd : st.depth = 0) :
    ((a0 = "exit".toList ∨ a0 = "cd".toList ∨ a0 = "path".toList) ↔
      ∀ e ∈ new_events st (run_line os st line), e.beyond_builtin = false) ∧
    (a0 = "exit".toList →
      run_line os st line = if rest ≠ [] then st.report else st.exit 0) ∧
    (a0 = "cd".toList → run_line os st line = command_cd os st (a0 :: rest)) ∧
    (a0 = "path".toList → run_line os st line = command_path st (a0 :: rest)) ∧
    (¬ (a0 = "exit".toList ∨ a0 = "cd".toList ∨ a0 = "path".toList) →
      run_line os st line =
        { (if (handle_redirection os st (a0 :: rest)).1 = 0 then
            command_execute os (handle_redirection os st (a0 :: rest)).2.2
              (handle_redirection os st (a0 :: rest)).2.1
          else (handle_redirection os st (a0 :: rest)).2.2) with
          out := st.out, err := st.err } ∧
      ∃ more, new_events st (run_line os st line) =
        Event.call Fn.handle_redirection (a0 :: rest) :: more) := by
  have hrun := run_line_single os st line a0 rest hamp htok
  have hexit : a0 = "exit".toList →
      run_line os st line = if rest ≠ [] then st.report else st.exit 0 := by
    intro h; rw [hrun, if_pos h]
  have hcd : a0 = "cd".toList → run_line os st line = command_cd os st (a0 :: rest) := by
    intro h
    have hne : a0 ≠ "exit".toList := by rw [h]; decide
    rw [hrun, if_neg hne, if_pos h]
  have hpath : a0 = "path".toList → run_line os st line = command_path st (a0 :: rest) := by
    intro h
    have hne : a0 ≠ "exit".toList := by rw [h]; decide
    have hne2 : a0 ≠ "cd".toList := by rw [h]; decide
    rw [hrun, if_neg hne, if_neg hne2, if_pos h]
  have hext : ¬ (a0 = "exit".toList ∨ a0 = "cd".toList ∨ a0 = "path".toList) →
      run_line os st line =
        { (if (handle_redirection os st (a0 :: rest)).1 = 0 then
            command_execute os (handle_redirection os st (a0 :: rest)).2.2
              (handle_redirection os st (a0 :: rest)).2.1
          else (handle_redirection os st (a0 :: rest)).2.2) with
          out := st.out, err := st.err } ∧
      ∃ more, new_events st (run_line os st line) =
        Event.call Fn.handle_redirection (a0 :: rest) :: more := by
    intro h
    have h1 : a0 ≠ "exit".toList := fun x => h (Or.inl x)
    have h2 : a0 ≠ "cd".toList := fun x => h (Or.inr (Or.inl x))
    have h3 : a0 ≠ "path".toList := fun x => h (Or.inr (Or.inr x))
    have heq := hrun
    rw [if_neg h1, if_neg h2, if_neg h3] at heq
    refine ⟨heq, ?_⟩
    obtain ⟨more, hm⟩ := external_path_first os st (a0 :: rest) hd
    exact ⟨more, new_events_append st _ _ (by rw [heq]; exact hm)⟩
  refine ⟨⟨?_, ?_⟩, hexit, hcd, hpath, hext⟩
  · rintro (h | h | h)
    · rw [hexit h]
      split_ifs
      · exact (log_grows (fun e => e.beyond_builtin = false) st (Event.error st.err)
          (by rw [hd]; rfl)).new_events
      · have hg : GrowsBy (fun e => e.beyond_builtin = false) st (st.exit 0) := by
          obtain ⟨g1, m, g2, g3⟩ := log_grows (fun e => e.beyond_builtin = false) st
            (Event.exit 0) (by rw [hd]; rfl)
          exact ⟨g1, m, g2, g3⟩
        exact hg.new_events
    · rw [hcd h]; exact (command_cd_builtin os st _ hd).new_events
    · rw [hpath h]; exact (command_path_builtin st _ hd).new_events
  · intro hall
    by_contra hnot
    obtain ⟨more, hm⟩ := (hext hnot).2
    have := hall (Event.call Fn.handle_redirection (a0 :: rest)) (by rw [hm]; simp)
    simp [Event.beyond_builtin] at this

/-- Witness of C6: `cd > out` is handed to `command_cd` with its three tokens. -/
theorem run_line_builtin_dispatch_witness :
    run_line os_ls (initial []) "cd > out".toList =
      command_cd os_ls (initial []) ("cd".toList :: [">".toList, "out".toList]) :=
  (run_line_builtin_dispatch os_ls (initial []) "cd > out".toList "cd".toList
    [">".toList, "out".toList] (by decide) (by decide) rfl).2.2.1 rfl

/-- C8: for a line without `&` whose first token is `exit`: with a further token the
interpreter reports the error once, does not exit and goes on with the next
line; with no further token it calls `exit(0)` at once, without an error report. -/
theorem exit_builtin (os : OS) (st : Shell) (raw : Str) (rest : List Str)
    (more : List (OS × Str)) (hamp : '&' ∉ strip_newline raw)
    (htok : (split_to_args (strip_newline raw)).tokens = "exit".toList :: rest)
    (hrun : st.halted = none) :
    (rest ≠ [] →
      run_line os st (strip_newline raw) =
        { st with trace := st.trace ++ [tag st.depth (Event.error st.err)] } ∧
      main_loop st ((os, raw) :: more) =
        main_loop { st with trace := st.trace ++ [tag st.depth (Event.error st.err)] } more) ∧
    (rest = [] →
      run_line os st (strip_newline raw) =
        { st with trace := st.trace ++ [tag st.depth (Event.exit 0)], halted := some 0 } ∧
      main_loop st ((os, raw) :: more) =
        { st with trace := st.trace ++ [tag st.depth (Event.exit 0)], halted := some 0 }) := by
  have hline := run_line_single os st (strip_newline raw) "exit".toList rest hamp htok
  rw [if_pos rfl] at hline
  constructor
  · intro hne
    rw [if_pos hne] at hline
    have h1 : run_line os st (strip_newline raw) =
        { st with trace := st.trace ++ [tag st.depth (Event.error st.err)] } := by
      rw [hline]; rfl
    refine ⟨h1, ?_⟩
    simp only [main_loop, h1, hrun, Option.isSome_none, Bool.false_eq_true, if_false]
  · intro hnil
    rw [if_neg (by simp [hnil])] at hline
    have h1 : run_line os st (strip_newline raw) =
        { st with trace := st.trace ++ [tag st.depth (Event.exit 0)], halted := some 0 } := by
      rw [hline]; rfl
    refine ⟨h1, ?_⟩
    simp only [main_loop, h1, Option.isSome_some, if_true]

/-- Witness of C8: `exit extra` then `exit`: one error report, then `exit(0)`. -/
theorem exit_builtin_witness :
    main_loop (initial []) [(os_ls, "exit extra\n".toList), (os_ls, "exit\n".toList)] =
      { initial [] with
        trace := [Event.error Stream.orig_stderr, Event.exit 0], halted := some 0 } := by
  rw [((exit_builtin os_ls (initial []) "exit extra\n".toList ["extra".toList]
    [(os_ls, "exit\n".toList)] (by decide) (by decide) rfl).1 (by decide)).2]
  exact ((exit_builtin os_ls _ "exit\n".toList [] [] (by decide) (by decide) rfl).2 rfl).2

/-! ## The coordinator -/

theorem amp_iff (c : Char) : (c == '&') = true ↔ c ∈ ['&'] := by
  simp

/-- The first loop of `handle_parallel_commands` keeps the non-empty `&`-separated
segments, up to 63 of them. -/
theorem commands_loop_spec (fuel : Nat) (s : Str) (acc : List Str) (hfuel : s.length < fuel) :
    commands_loop fuel (strtok ['&'] s) acc =
      acc ++ (fields (fun c => c == '&') s).take (63 - acc.length) := by
  induction fuel generalizing s acc with
  | zero => omega
  | succ fuel ih =>
    cases h : strtok ['&'] s with
    | none =>
      rw [strtok_none_fields _ ['&'] amp_iff s h]
      simp [commands_loop]
    | some tr =>
      obtain ⟨token, rest⟩ := tr
      obtain ⟨hf, -, -, hlen⟩ := strtok_some_fields _ ['&'] amp_iff s token rest h
      rw [hf]
      by_cases hroom : acc.length < 64 - 1
      · rw [commands_loop, if_pos hroom, ih rest (acc ++ [token]) (by omega)]
        have h63 : 63 - acc.length = (63 - (acc ++ [token]).length) + 1 := by
          simp only [List.length_append, List.length_singleton]; omega
        rw [h63, List.take_succ_cons]
        simp
      · rw [commands_loop, if_neg hroom]
        have h0 : 63 - acc.length = 0 := by omega
        rw [h0]
        simp

theorem commands_loop_line (line : Str) :
    commands_loop (line.length + 1) (strtok ['&'] line) [] =
      (fields (fun c => c == '&') line).take 63 := by
  rw [commands_loop_spec _ line [] (by omega)]
  simp

theorem forks_of_append (a b : List Event) : forks_of (a ++ b) = forks_of a ++ forks_of b := by
  simp [forks_of, List.filterMap_append]

theorem forks_of_deep (m : List Event) (h : ∀ e ∈ m, deep 1 e) : forks_of m = [] := by
  induction m with
  | nil => rfl
  | cons e m ih =>
    obtain ⟨e0, he⟩ := h e (List.mem_cons_self _ _)
    have hm := ih (fun x hx => h x (List.mem_cons_of_mem _ hx))
    simp only [forks_of, List.filterMap_cons, he, tag] at hm ⊢
    exact hm

theorem segment_child_deep (os : OS) (d : Nat) (st : Shell) (args : List Str)
    (hd : d ≤ st.depth) : GrowsBy (deep d) st (segment_child os st args) := by
  have h1 := handle_redirection_deep os d st args hd
  have hd1 : d ≤ (handle_redirection os st args).2.2.depth := by rw [h1.1]; exact hd
  have h2 := command_execute_deep os d (handle_redirection os st args).2.2
    (handle_redirection os st args).2.1 hd1
  have hd2 : d ≤ (command_execute os (handle_redirection os st args).2.2
      (handle_redirection os st args).2.1).depth := by rw [h2.1]; exact hd1
  exact (h1.trans h2).trans (exit_deep d _ 0 hd2)

/-- The spawning loop of `handle_parallel_commands`, run by the interpreter: it
forks once for every segment with at least one token, in order, and logs
nothing of its own besides. -/
theorem spawn_loop_spec (os : OS) (commands : List Str) :
    ∀ st : Shell, st.depth = 0 →
      (spawn_loop os commands st).depth = 0 ∧
      ∃ more, (spawn_loop os commands st).trace = st.trace ++ more ∧
        forks_of more =
          (commands.map (fun c => (split_to_args c).tokens)).filter (fun v => v ≠ []) ∧
        ∀ e ∈ more, e.of_coordinator = true := by
  induction commands with
  | nil => intro st hd; exact ⟨hd, [], by simp [spawn_loop], by simp [forks_of], by simp⟩
  | cons command commands ih =>
    intro st hd
    cases htok : (split_to_args command).tokens with
    | nil =>
      obtain ⟨h1, more, h2, h3, h4⟩ := ih st hd
      refine ⟨by simpa [spawn_loop, htok] using h1, more, by simpa [spawn_loop, htok] using h2, ?_, h4⟩
      rw [h3]; simp [htok]
    | cons a as =>
      by_cases hfork : os.fork_ok st.trace.length = true
      · obtain ⟨-, m, hm, hdeep⟩ := segment_child_deep os 1
          { st.log (Event.fork (a :: as) true) with depth := st.depth + 1 } (a :: as)
          (by show 1 ≤ st.depth + 1; omega)
        obtain ⟨h1, more, h2, h3, h4⟩ := ih
          { st with trace := (segment_child os
            { st.log (Event.fork (a :: as) true) with depth := st.depth + 1 } (a :: as)).trace } hd
        have hrun : spawn_loop os (command :: commands) st = spawn_loop os commands
            { st with trace := (segment_child os
              { st.log (Event.fork (a :: as) true) with depth := st.depth + 1 } (a :: as)).trace } := by
          simp only [spawn_loop, htok, hfork, if_true]
        rw [hrun]
        refine ⟨h1, Event.fork (a :: as) true :: (m ++ more), ?_, ?_, ?_⟩
        · rw [h2]
          show (segment_child os _ (a :: as)).trace ++ more = _
          rw [hm]
          simp [Shell.log, hd, tag]
        · have : forks_of (Event.fork (a :: as) true :: (m ++ more)) =
              (a :: as) :: forks_of (m ++ more) := rfl
          rw [this, forks_of_append, forks_of_deep m hdeep, h3]
          simp [htok]
        · intro e he
          simp only [List.mem_cons, List.mem_append] at he
          rcases he with rfl | he | he
          · rfl
          · obtain ⟨e0, rfl⟩ := hdeep e he
            rfl
          · exact h4 e he
      · obtain ⟨h1, more, h2, h3, h4⟩ := ih (st.log (Event.fork (a :: as) false)) hd
        have hrun : spawn_loop os (command :: commands) st =
            spawn_loop os commands (st.log (Event.fork (a :: as) false)) := by
          simp only [spawn_loop, htok, hfork, Bool.false_eq_true, if_false]
        rw [hrun]
        refine ⟨h1, Event.fork (a :: as) false :: more, ?_, ?_, ?_⟩
        · rw [h2]; simp [Shell.log, hd, tag]
        · have : forks_of (Event.fork (a :: as) false :: more) = (a :: as) :: forks_of more := rfl
          rw [this, h3]
          simp [htok]
        · intro e he
          simp only [List.mem_cons] at he
          rcases he with rfl | he
          · rfl
          · exact h4 e he

theorem wait_loop_spec (n : Nat) : ∀ st : Shell, st.depth = 0 →
    (wait_loop n st).trace = st.trace ++ List.replicate n Event.wait := by
  induction n with
  | zero => intro st _; simp [wait_loop]
  | succ n ih =>
    intro st hd
    rw [wait_loop, ih (st.log Event.wait) hd]
    simp [Shell.log, hd, tag, List.replicate_succ]

/-- The forks of the interpreter in `handle_parallel_commands`: the token vectors of
the first 63 non-empty `&`-separated segments that hold a token, in order; and
the interpreter itself logs only the entry, forks and waits. -/
theorem parallel_forks (os : OS) (st : Shell) (line : Str) (hd : st.depth = 0) :
    forks_of (new_events st (handle_parallel_commands os st line)) =
      (((fields (fun c => c == '&') line).take 63).map spec_fields).filter (fun v => v ≠ []) ∧
    ∀ e ∈ new_events st (handle_parallel_commands os st line), e.of_coordinator = true := by
  obtain ⟨h1, more, h2, h3, h4⟩ := spawn_loop_spec os
    (commands_loop (line.length + 1) (strtok ['&'] line) [])
    (st.log (Event.call Fn.handle_parallel_commands [line])) hd
  have hw := wait_loop_spec (commands_loop (line.length + 1) (strtok ['&'] line) []).length _ h1
  have htrace : (handle_parallel_commands os st line).trace =
      st.trace ++ (Event.call Fn.handle_parallel_commands [line] :: more ++
        List.replicate (commands_loop (line.length + 1) (strtok ['&'] line) []).length
          Event.wait) := by
    unfold handle_parallel_commands
    simp only
    rw [hw, h2]
    simp [Shell.log, hd, tag]
  rw [new_events_append st _ _ htrace]
  constructor
  · have hcall : forks_of (Event.call Fn.handle_parallel_commands [line] :: more ++
        List.replicate (commands_loop (line.length + 1) (strtok ['&'] line) []).length
          Event.wait) = forks_of more ++ forks_of (List.replicate
            (commands_loop (line.length + 1) (strtok ['&'] line) []).length Event.wait) := by
      rw [forks_of_append]; rfl
    have hwait : ∀ n, forks_of (List.replicate n Event.wait) = [] := by
      intro n
      induction n with
      | zero => rfl
      | succ n ihn => rw [List.replicate_succ]; exact ihn
    rw [hcall, hwait, h3, commands_loop_line, List.append_nil]
    congr 1
    apply List.map_congr_left
    intro c _
    exact split_to_args_tokens c
  · intro e he
    simp only [List.mem_append, List.mem_cons, List.cons_append] at he
    rcases he with rfl | he | he
    · rfl
    · exact h4 e he
    · rw [List.eq_of_mem_replicate he]; rfl

theorem spec_fields_nil : spec_fields [] = [] := by
  rw [spec_fields_eq, fields_nil]

/-- Segments without a character hold no token: they may be dropped before tokenizing. -/
theorem spec_spawns_eq (line : Str) :
    spec_spawns line =
      ((fields (fun c => c == '&') line).map spec_fields).filter (fun v => v ≠ []) := by
  unfold spec_spawns fields
  induction line.splitOnP (fun c => c == '&') with
  | nil => rfl
  | cons x xs ih =>
    by_cases hx : x = []
    · subst hx
      simp only [List.map_cons, spec_fields_nil]
      rw [List.filter_cons_of_neg (by simp), List.filter_cons_of_neg (by simp)]
      exact ih
    · rw [List.filter_cons_of_pos (l := xs) (by simpa using hx)]
      simp only [List.map_cons]
      by_cases hv : spec_fields x = []
      · rw [List.filter_cons_of_neg (by simpa using hv), List.filter_cons_of_neg (by simpa using hv)]
        exact ih
      · rw [List.filter_cons_of_pos (by simpa using hv), List.filter_cons_of_pos (by simpa using hv)]
        rw [ih]

/-- C9, amended: for a line containing `&`, the commands for which the interpreter
forks in `handle_parallel_commands` are, in left-to-right order and once each,
the token vectors of those among the first 63 non-empty `&`-separated segments
that hold at least one token; when the line has at most 63 non-empty segments
these are the token vectors of all `&`-separated segments that hold a token.
Segments without a token cause no fork and no error report of the interpreter. -/
theorem parallel_spawn_requests (os : OS) (st : Shell) (line : Str) (hamp : '&' ∈ line)
    (hd : st.depth = 0) :
    forks_of (new_events st (run_line os st line)) =
      (((fields (fun c => c == '&') line).take 63).map spec_fields).filter (fun v => v ≠ []) ∧
    ((fields (fun c => c == '&') line).length ≤ 63 →
      forks_of (new_events st (run_line os st line)) = spec_spawns line) ∧
    (∀ e ∈ new_events st (run_line os st line),
      e.of_coordinator = true ∧ ∀ s, e ≠ Event.error s) := by
  have hrun : run_line os st line = handle_parallel_commands os st line := by
    unfold run_line; rw [if_pos hamp]
  obtain ⟨h1, h2⟩ := parallel_forks os st line hd
  rw [hrun]
  refine ⟨h1, ?_, ?_⟩
  · intro hlen
    rw [h1, List.take_of_length_le hlen, spec_spawns_eq]
  · intro e he
    refine ⟨h2 e he, ?_⟩
    intro s hs
    have := h2 e he
    rw [hs] at this
    simp [Event.of_coordinator] at this

/-- Witness of C9: `ls & & pwd` forks for `ls` and for `pwd`, in this order. -/
theorem parallel_spawn_requests_witness :
    forks_of (new_events (initial []) (run_line os_ls (initial []) "ls & & pwd".toList)) =
      spec_spawns "ls & & pwd".toList ∧
    spec_spawns "ls & & pwd".toList = [["ls".toList], ["pwd".toList]] :=
  ⟨(parallel_spawn_requests os_ls (initial []) "ls & & pwd".toList (by decide) rfl).2.1
      (by decide),
   by decide⟩

/-- Counterexample to C9 as stated: the line `a&a&...a&` with 64 segments `a` has 64
segments that hold a token, and the interpreter forks for the first 63 only. -/
theorem parallel_spawns_dropped :
    '&' ∈ many_segments 64 ∧
    (spec_spawns (many_segments 64)).length = 64 ∧
    (forks_of (new_events (initial [])
      (run_line os_all (initial []) (many_segments 64)))).length = 63 ∧
    forks_of (new_events (initial []) (run_line os_all (initial []) (many_segments 64))) ≠
      spec_spawns (many_segments 64) := by
  have hamp : '&' ∈ many_segments 64 := by decide
  have hrun : run_line os_all (initial []) (many_segments 64) =
      handle_parallel_commands os_all (initial []) (many_segments 64) := by
    unfold run_line; rw [if_pos hamp]
  have hspec : (spec_spawns (many_segments 64)).length = 64 := by decide
  have hcode : (forks_of (new_events (initial [])
      (run_line os_all (initial []) (many_segments 64)))).length = 63 := by
    rw [hrun, (parallel_forks os_all (initial []) (many_segments 64) rfl).1]
    decide
  refine ⟨hamp, hspec, hcode, ?_⟩
  intro h
  rw [h, hspec] at hcode
  omega

/-! ## Malformed redirection in the two modes -/

/-- Single mode: a command with a malformed redirection is reported once and
`command_execute` is not called. -/
theorem run_line_malformed_single (os : OS) (st : Shell) (line : Str) (pre post : List Str)
    (hamp : '&' ∉ line) (htok : (split_to_args line).tokens = pre ++ ['>'] :: post)
    (hpre : ∀ a ∈ pre, a ≠ ['>']) (hpost : post.length ≠ 1)
    (hne : pre.head? ≠ some "exit".toList ∧ pre.head? ≠ some "cd".toList ∧
      pre.head? ≠ some "path".toList) :
    run_line os st line =
      { st with
        trace := st.trace ++
          [tag st.depth (Event.call Fn.handle_redirection (pre ++ ['>'] :: post)),
           tag st.depth (Event.error st.err)] } := by
  have hr := handle_redirection_refuses os st pre post hpre hpost
  cases pre with
  | nil =>
    have hrun := run_line_single os st line ['>'] post hamp (by simpa using htok)
    rw [if_neg (by decide), if_neg (by decide), if_neg (by decide)] at hrun
    rw [hrun]
    simp only [List.nil_append] at hr
    rw [hr]
    simp
  | cons a pre =>
    have hrun := run_line_single os st line a (pre ++ ['>'] :: post) hamp (by simpa using htok)
    simp only [List.head?_cons, ne_eq, Option.some.injEq] at hne
    rw [if_neg hne.1, if_neg hne.2.1, if_neg hne.2.2] at hrun
    rw [hrun]
    simp only [List.cons_append] at hr
    rw [hr]
    simp

/-- Parallel mode: the child of a segment with a malformed redirection reports the
error and then calls `command_execute` on the whole vector, `>` included. -/
theorem segment_child_malformed (os : OS) (st : Shell) (pre post : List Str)
    (hpre : ∀ a ∈ pre, a ≠ ['>']) (hpost : post.length ≠ 1) :
    segment_child os st (pre ++ ['>'] :: post) =
      (command_execute os
        { st with
          trace := st.trace ++
            [tag st.depth (Event.call Fn.handle_redirection (pre ++ ['>'] :: post)),
             tag st.depth (Event.error st.err)] }
        (pre ++ ['>'] :: post)).exit 0 := by
  unfold segment_child
  simp only [handle_redirection_refuses os st pre post hpre hpost]

/-- C10, the code at the failing input `ls > &`: in single mode the malformed
command `ls >` is reported and `command_execute` is not called; in the segment of
a line with `&` the child reports the error and still calls `command_execute` on
`["ls", ">"]`, and `/bin/ls` is executed with the argument `>`. -/
theorem parallel_malformed_is_executed :
    (run_line os_ls (initial []) "ls >".toList).trace =
      [Event.call Fn.handle_redirection ["ls".toList, ">".toList],
       Event.error Stream.orig_stderr] ∧
    (run_line os_ls (initial []) "ls > &".toList).trace =
      [Event.call Fn.handle_parallel_commands ["ls > &".toList],
       Event.fork ["ls".toList, ">".toList] true,
       Event.in_child (Event.call Fn.handle_redirection ["ls".toList, ">".toList]),
       Event.in_child (Event.error Stream.orig_stderr),
       Event.in_child (Event.call Fn.command_execute ["ls".toList, ">".toList]),
       Event.in_child (Event.fork ["ls".toList, ">".toList] true),
       Event.in_child (Event.in_child (Event.execv "/bin/ls".toList
         ["ls".toList, ">".toList] Stream.orig_stdout Stream.orig_stderr true)),
       Event.in_child Event.wait,
       Event.in_child (Event.exit 0),
       Event.wait] := by
  constructor
  · decide
  · decide

/-! ## Growth of the token array -/

/-- The loop of `split_to_args` keeps the capacity at `capacity_at position`, and
the writes it logs are those at the indices below `position`, in order, each
with the capacity of its moment. -/
theorem split_loop_writes (fuel : Nat) : ∀ (r : Option (Str × Str)) (b : TokenBuf),
    b.bufsize = capacity_at b.position →
    b.writes = (List.range b.position).map (fun i => (i, capacity_at i)) →
    (split_loop fuel r b).bufsize = capacity_at (split_loop fuel r b).position ∧
    (split_loop fuel r b).writes =
      (List.range (split_loop fuel r b).position).map (fun i => (i, capacity_at i)) := by
  induction fuel with
  | zero => intro r b h1 h2; exact ⟨h1, h2⟩
  | succ fuel ih =>
    intro r b h1 h2
    cases r with
    | none => exact ⟨h1, h2⟩
    | some tr =>
      obtain ⟨token, rest⟩ := tr
      simp only [split_loop]
      apply ih
      · unfold capacity_at at h1 ⊢
        split_ifs with hge
        · simp only at hge ⊢
          omega
        · simp only at hge ⊢
          omega
      · have hw : b.writes ++ [(b.position, b.bufsize)] =
            (List.range (b.position + 1)).map (fun i => (i, capacity_at i)) := by
          rw [List.range_succ, List.map_append, h2, h1]
          rfl
        split_ifs
        · exact hw
        · exact hw

theorem split_to_args_writes (line : Str) :
    (split_to_args line).writes =
      (List.range ((spec_fields line).length + 1)).map (fun i => (i, capacity_at i)) := by
  obtain ⟨h1, h2⟩ := split_loop_writes (line.length + 1) (strtok blanks line)
    { tokens := [], position := 0, bufsize := 64, writes := [] } rfl rfl
  have hpos := split_to_args_position line
  simp only [split_to_args] at hpos ⊢
  rw [h2, h1, hpos, List.range_succ, List.map_append]
  rfl

/-- C19: for every line, with `n` its number of tokens, the writes into the token
array are those at the indices 0, 1, ..., n in this order (the last one stores
the terminator), each at an index below the capacity of its moment, which is 64
at the start and grows by 64 whenever the number of stored tokens reaches it;
and the vector returned holds all `n` tokens. -/
theorem split_to_args_buffer_safe (line : Str) :
    (split_to_args line).writes =
      (List.range ((spec_fields line).length + 1)).map (fun i => (i, capacity_at i)) ∧
    (∀ w ∈ (split_to_args line).writes, w.1 < w.2) ∧
    (split_to_args line).tokens = spec_fields line ∧
    (split_to_args line).position = (spec_fields line).length ∧
    capacity_at 0 = 64 ∧ (∀ k, capacity_at (k + 64) = capacity_at k + 64) := by
  refine ⟨split_to_args_writes line, ?_, split_to_args_tokens line,
    split_to_args_position line, rfl, ?_⟩
  · rw [split_to_args_writes]
    intro w hw
    simp only [List.mem_map, List.mem_range] at hw
    obtain ⟨i, -, rfl⟩ := hw
    show i < capacity_at i
    unfold capacity_at
    omega
  · intro k
    unfold capacity_at
    omega

/-- Witness of C19: a line of exactly 64 tokens; the 64th token is written at index
63 under capacity 64, and the terminator at index 64 under capacity 128. -/
theorem split_to_args_buffer_safe_witness :
    (spec_fields (many_tokens 64)).length = 64 ∧
    (split_to_args (many_tokens 64)).writes =
      (List.range ((spec_fields (many_tokens 64)).length + 1)).map
        (fun i => (i, capacity_at i)) ∧
    (split_to_args (many_tokens 64)).writes.drop 63 = [(63, 64), (64, 128)] := by
  have h := (split_to_args_buffer_safe (many_tokens 64)).1
  have hn : (spec_fields (many_tokens 64)).length = 64 := by decide
  refine ⟨hn, h, ?_⟩
  rw [h, hn]
  decide

/-! ## Placement of the redirection marker -/

/-- A vector holding a `>` splits at its first `>`. -/
theorem split_at_first_marker (args : List Str) (h : ['>'] ∈ args) :
    ∃ pre post, args = pre ++ ['>'] :: post ∧ ∀ a ∈ pre, a ≠ ['>'] := by
  induction args with
  | nil => simp at h
  | cons a as ih =>
    by_cases ha : a = ['>']
    · exact ⟨[], as, by simp [ha], by simp⟩
    · have hmem : ['>'] ∈ as := by
        rcases List.mem_cons.1 h with h1 | h1
        · exact absurd h1.symm ha
        · exact h1
      obtain ⟨pre, post, hsplit, hpre⟩ := ih hmem
      refine ⟨a :: pre, post, by simp [hsplit], ?_⟩
      intro x hx
      rcases List.mem_cons.1 hx with rfl | hx
      · exact ha
      · exact hpre x hx

/-- Exactly one token after the first `>`: the result depends on `open` alone. -/
theorem handle_redirection_one_token (os : OS) (st : Shell) (pre : List Str) (f : Str)
    (hpre : ∀ a ∈ pre, a ≠ ['>']) :
    handle_redirection os st (pre ++ [['>'], f]) =
      if os.open_ok f then
        (0, pre,
          { st with
            out := Stream.file f
            err := Stream.file f
            trace := st.trace ++
              [tag st.depth (Event.call Fn.handle_redirection (pre ++ [['>'], f])),
               tag st.depth (Event.open_file f true),
               tag st.depth (Event.redirect f)] })
      else
        (-1, pre ++ [['>'], f],
          { st with
            trace := st.trace ++
              [tag st.depth (Event.call Fn.handle_redirection (pre ++ [['>'], f])),
               tag st.depth (Event.open_file f false),
               tag st.depth (Event.error st.err)] }) := by
  rw [handle_redirection_at_marker os st pre [f] hpre]
  have h0 : (pre ++ [['>'], f])[pre.length]? = some ['>'] := by
    rw [getElem?_append_length]; rfl
  have h1 : (pre ++ [['>'], f])[pre.length + 1]? = some f := by
    rw [getElem?_append_add]; rfl
  have h2 : (pre ++ [['>'], f])[pre.length + 2]? = none := by
    rw [getElem?_append_add]; rfl
  have h3 : (pre ++ [['>'], f]).getD (pre.length + 1) [] = f := by
    simp [List.getD_eq_getElem?_getD, h1]
  by_cases hopen : os.open_ok f = true
  · simp [redirection_loop, h0, h1, h2, h3, hopen, Shell.log]
  · have hfalse : os.open_ok f = false := by simpa using hopen
    simp [redirection_loop, h0, h1, h2, h3, hfalse, Shell.log, Shell.report]

/-- Counterexample to C11 as stated: the vector `["ls", ">", ">"]` holds two `>`
tokens, and `handle_redirection` returns 0, opens the file named `>` and cuts the
vector to `["ls"]`. -/
theorem handle_redirection_marker_as_file :
    List.count ['>'] ["ls".toList, ['>'], ['>']] = 2 ∧
    handle_redirection os_ls (initial []) ["ls".toList, ['>'], ['>']] =
      (0, ["ls".toList],
        { initial [] with
          out := Stream.file ['>']
          err := Stream.file ['>']
          trace := [Event.call Fn.handle_redirection ["ls".toList, ['>'], ['>']],
            Event.open_file ['>'] true, Event.redirect ['>']] }) := by
  constructor
  · decide
  · decide

/-- C11, amended: a vector with two or more `>` tokens is refused by
`handle_redirection` (return value -1, one error report, no `open`, vector as it
was) unless its first `>` is its second-to-last token, the last token being the
second `>`; and whenever `handle_redirection` returns 0 on a vector holding a `>`,
the first `>` of the vector is its second-to-last token, the last token is the
file opened, and the vector is cut to the tokens before that `>`. -/
theorem handle_redirection_marker_placement (os : OS) (st : Shell) (args : List Str) :
    (2 ≤ List.count ['>'] args →
      (∀ pre, (∀ a ∈ pre, a ≠ ['>']) → args ≠ pre ++ [['>'], ['>']]) →
      handle_redirection os st args =
        (-1, args,
          { st with
            trace := st.trace ++
              [tag st.depth (Event.call Fn.handle_redirection args),
               tag st.depth (Event.error st.err)] })) ∧
    (['>'] ∈ args → (handle_redirection os st args).1 = 0 →
      ∃ pre f, (∀ a ∈ pre, a ≠ ['>']) ∧ args = pre ++ [['>'], f] ∧ os.open_ok f = true ∧
        handle_redirection os st args =
          (0, pre,
            { st with
              out := Stream.file f
              err := Stream.file f
              trace := st.trace ++
                [tag st.depth (Event.call Fn.handle_redirection args),
                 tag st.depth (Event.open_file f true),
                 tag st.depth (Event.redirect f)] })) := by
  constructor
  · intro hcount hnot
    have hmem : ['>'] ∈ args := List.count_pos_iff.1 (by omega)
    obtain ⟨pre, post, hsplit, hpre⟩ := split_at_first_marker args hmem
    subst hsplit
    have hlen : post.length ≠ 1 := by
      intro h1
      match post, h1 with
      | [f], _ =>
        have hc : List.count ['>'] pre = 0 :=
          List.count_eq_zero.2 (fun hin => hpre _ hin rfl)
        by_cases hf : f = ['>']
        · subst hf
          exact hnot pre hpre rfl
        · have hf2 : (f == ['>']) = false := by simpa using hf
          simp [List.count_append, List.count_cons, hc, hf2] at hcount
    exact handle_redirection_refuses os st pre post hpre hlen
  · intro hmem hzero
    obtain ⟨pre, post, hsplit, hpre⟩ := split_at_first_marker args hmem
    subst hsplit
    by_cases hlen : post.length = 1
    · match post, hlen with
      | [f], _ =>
        have h := handle_redirection_one_token os st pre f hpre
        by_cases hopen : os.open_ok f = true
        · rw [if_pos hopen] at h
          exact ⟨pre, f, hpre, rfl, hopen, h⟩
        · rw [if_neg hopen] at h
          rw [h] at hzero
          simp at hzero
    · rw [handle_redirection_refuses os st pre post hpre hlen] at hzero
      simp at hzero

/-- Witness of C11: `["ls", ">", "a", ">"]` is refused; `["ls", ">", "out"]` is accepted
with the first `>` second-to-last. -/
theorem handle_redirection_marker_placement_witness :
    handle_redirection os_ls (initial []) ["ls".toList, ['>'], ['a'], ['>']] =
      (-1, ["ls".toList, ['>'], ['a'], ['>']],
        { initial [] with
          trace := (initial []).trace ++
            [tag (initial []).depth (Event.call Fn.handle_redirection
               ["ls".toList, ['>'], ['a'], ['>']]),
             tag (initial []).depth (Event.error (initial []).err)] }) ∧
    ∃ pre f, (∀ a ∈ pre, a ≠ ['>']) ∧ ["ls".toList, ['>'], "out".toList] = pre ++ [['>'], f] ∧
      os_ls.open_ok f = true ∧
      handle_redirection os_ls (initial []) ["ls".toList, ['>'], "out".toList] =
        (0, pre,
          { initial [] with
            out := Stream.file f
            err := Stream.file f
            trace := (initial []).trace ++
              [tag (initial []).depth (Event.call Fn.handle_redirection
                 ["ls".toList, ['>'], "out".toList]),
               tag (initial []).depth (Event.open_file f true),
               tag (initial []).depth (Event.redirect f)] }) :=
  ⟨(handle_redirection_marker_placement os_ls (initial [])
      ["ls".toList, ['>'], ['a'], ['>']]).1 (by decide)
      (by
        intro pre _ h
        have hl := congrArg List.length h
        have hlast := congrArg List.getLast? h
        simp at hl
        have h2 : pre.length = 2 := by omega
        match pre, h2 with
        | [x, y], _ => simp at h),
   (handle_redirection_marker_placement os_ls (initial [])
      ["ls".toList, ['>'], "out".toList]).2 (by decide) (by decide)⟩

/-! ## What each function logs -/

theorem core_tag (k : Nat) (e : Event) : (tag k e).core = e.core := by
  induction k with
  | zero => rfl
  | succ k ih => simpa [tag, Event.core] using ih

theorem is_builtin_tag (k : Nat) (e : Event) : (tag k e).is_builtin = e.is_builtin := by
  simp [Event.is_builtin, core_tag]

theorem redir_event_not_builtin (err : Stream) (d : Nat) (e : Event)
    (h : logged_by (redir_event err) d e) : e.is_builtin = false := by
  obtain ⟨k, e0, -, rfl, hK⟩ := h
  rw [is_builtin_tag]
  rcases hK with ⟨a, rfl⟩ | rfl | ⟨f, ok, rfl⟩ | ⟨f, rfl⟩ <;> rfl

theorem exec_event_not_builtin (out err : Stream) (args : List Str) (d : Nat) (e : Event)
    (h : logged_by (exec_event out err args) d e) : e.is_builtin = false := by
  obtain ⟨k, e0, -, rfl, hK⟩ := h
  rw [is_builtin_tag]
  rcases hK with rfl | ⟨ok, rfl⟩ | ⟨p, ok, rfl⟩ | rfl | rfl | rfl | rfl <;> rfl

theorem log_logged (K : Event → Prop) (d : Nat) (st : Shell) (e : Event) (hd : d ≤ st.depth)
    (hK : K e) : GrowsBy (logged_by K d) st (st.log e) :=
  log_grows _ st e ⟨st.depth, e, hd, rfl, hK⟩

theorem exit_logged (K : Event → Prop) (d : Nat) (st : Shell) (code : Nat) (hd : d ≤ st.depth)
    (hK : K (Event.exit code)) : GrowsBy (logged_by K d) st (st.exit code) := by
  obtain ⟨h1, m, h2, h3⟩ := log_logged K d st (Event.exit code) hd hK
  exact ⟨h1, m, h2, h3⟩

theorem redirection_loop_logs (os : OS) (d : Nat) (fuel : Nat) :
    ∀ (i : Nat) (args : List Str) (st : Shell), d ≤ st.depth →
      GrowsBy (logged_by (redir_event st.err) d) st (redirection_loop os fuel i args st).2.2 := by
  induction fuel with
  | zero => intro i args st _; exact GrowsBy.refl _ st
  | succ fuel ih =>
    intro i args st hd
    unfold redirection_loop
    cases hi : args[i]? with
    | none => exact GrowsBy.refl _ st
    | some a =>
      simp only
      split_ifs
      · exact log_logged _ d st _ hd (Or.inr (Or.inl rfl))
      · have h1 := log_logged (redir_event st.err) d st
          (Event.open_file (args.getD (i + 1) []) true) hd (Or.inr (Or.inr (Or.inl ⟨_, _, rfl⟩)))
        have h2 := log_logged (redir_event st.err) d
          (st.log (Event.open_file (args.getD (i + 1) []) true))
          (Event.redirect (args.getD (i + 1) [])) hd (Or.inr (Or.inr (Or.inr ⟨_, rfl⟩)))
        obtain ⟨h3, m, h4, h5⟩ := h1.trans h2
        exact ⟨h3, m, h4, h5⟩
      · have h1 := log_logged (redir_event st.err) d st
          (Event.open_file (args.getD (i + 1) []) false) hd
          (Or.inr (Or.inr (Or.inl ⟨_, _, rfl⟩)))
        exact h1.trans (log_logged (redir_event st.err) d
          (st.log (Event.open_file (args.getD (i + 1) []) false)) _ hd (Or.inr (Or.inl rfl)))
      · exact ih (i + 1) args st hd

theorem handle_redirection_logs (os : OS) (d : Nat) (st : Shell) (args : List Str)
    (hd : d ≤ st.depth) :
    GrowsBy (logged_by (redir_event st.err) d) st (handle_redirection os st args).2.2 :=
  (log_logged (redir_event st.err) d st _ hd (Or.inl ⟨args, rfl⟩)).trans
    (redirection_loop_logs os d _ _ _ (st.log (Event.call Fn.handle_redirection args)) hd)

theorem command_execute_child_logs (os : OS) (d : Nat) (st : Shell) (args : List Str)
    (hd : d ≤ st.depth) :
    GrowsBy (logged_by (exec_event st.out st.err args) d) st
      (command_execute_child os st args) := by
  unfold command_execute_child
  cases args with
  | nil =>
    simp only
    split_ifs
    · exact (log_logged (exec_event st.out st.err []) d st (Event.error st.err) hd
        (by simp [exec_event])).trans
        (exit_logged (exec_event st.out st.err []) d st.report 1 hd (by simp [exec_event]))
    · exact log_logged _ d st _ hd (by simp [exec_event])
  | cons cmd rest =>
    simp only
    cases search_loop os st.search_paths cmd st.num_paths 0 with
    | none =>
      exact (log_logged (exec_event st.out st.err (cmd :: rest)) d st (Event.error st.err) hd
        (by simp [exec_event])).trans
        (exit_logged (exec_event st.out st.err (cmd :: rest)) d st.report 1 hd
          (by simp [exec_event]))
    | some full_path =>
      simp only
      split_ifs
      · exact log_logged _ d st _ hd (by simp [exec_event])
      · have h1 := log_logged (exec_event st.out st.err (cmd :: rest)) d st
          (Event.execv full_path (cmd :: rest) st.out st.err false) hd (by simp [exec_event])
        have h2 := log_logged (exec_event st.out st.err (cmd :: rest)) d
          (st.log (Event.execv full_path (cmd :: rest) st.out st.err false))
          (Event.error st.err) hd (by simp [exec_event])
        have h3 := exit_logged (exec_event st.out st.err (cmd :: rest)) d
          (st.log (Event.execv full_path (cmd :: rest) st.out st.err false)).report 1 hd
          (by simp [exec_event])
        exact (h1.trans h2).trans h3

theorem command_execute_logs (os : OS) (d : Nat) (st : Shell) (args : List Str)
    (hd : d ≤ st.depth) :
    GrowsBy (logged_by (exec_event st.out st.err args) d) st (command_execute os st args) := by
  have h0 := log_logged (exec_event st.out st.err args) d st
    (Event.call Fn.command_execute args) hd (by simp [exec_event])
  refine h0.trans ?_
  unfold command_execute
  simp only
  split_ifs
  · have hf := log_logged (exec_event st.out st.err args) d
      (st.log (Event.call Fn.command_execute args)) (Event.fork args true) hd
      (by simp [exec_event])
    have hc := command_execute_child_logs os d
      { (st.log (Event.call Fn.command_execute args)).log (Event.fork args true) with
        depth := (st.log (Event.call Fn.command_execute args)).depth + 1 } args
      (by show d ≤ st.depth + 1; omega)
    obtain ⟨-, m1, ht1, hp1⟩ := hf
    obtain ⟨-, m2, ht2, hp2⟩ := hc
    have hparent : GrowsBy (logged_by (exec_event st.out st.err args) d)
        (st.log (Event.call Fn.command_execute args))
        { st.log (Event.call Fn.command_execute args) with
          trace := (command_execute_child os
            { (st.log (Event.call Fn.command_execute args)).log (Event.fork args true) with
              depth := (st.log (Event.call Fn.command_execute args)).depth + 1 } args).trace } := by
      refine ⟨rfl, m1 ++ m2, ?_, ?_⟩
      · show (command_execute_child os _ args).trace = _
        rw [ht2]
        show ((st.log (Event.call Fn.command_execute args)).log (Event.fork args true)).trace ++ m2 = _
        rw [ht1, List.append_assoc]
      · intro e he
        rcases List.mem_append.1 he with h | h
        · exact hp1 e h
        · exact hp2 e h
    exact hparent.trans (log_logged (exec_event st.out st.err args) d _ Event.wait hd
      (by simp [exec_event]))
  · exact (log_logged (exec_event st.out st.err args) d
      (st.log (Event.call Fn.command_execute args)) (Event.fork args false) hd
      (by simp [exec_event])).trans
      (log_logged (exec_event st.out st.err args) d
        ((st.log (Event.call Fn.command_execute args)).log (Event.fork args false))
        (Event.error st.err) hd (by simp [exec_event]))

/-! ## What each function leaves untouched -/

theorem command_execute_frame (os : OS) (st : Shell) (args : List Str) :
    command_execute os st args = { st with trace := (command_execute os st args).trace } := by
  unfold command_execute
  simp only
  split_ifs <;> rfl

theorem redirection_loop_frame (os : OS) (fuel : Nat) :
    ∀ (i : Nat) (args : List Str) (st : Shell),
      (redirection_loop os fuel i args st).2.2 =
        { st with
          trace := (redirection_loop os fuel i args st).2.2.trace
          out := (redirection_loop os fuel i args st).2.2.out
          err := (redirection_loop os fuel i args st).2.2.err } := by
  induction fuel with
  | zero => intro i args st; rfl
  | succ fuel ih =>
    intro i args st
    unfold redirection_loop
    cases hi : args[i]? with
    | none => rfl
    | some a =>
      simp only
      split_ifs
      · rfl
      · rfl
      · rfl
      · exact ih (i + 1) args st

theorem handle_redirection_frame (os : OS) (st : Shell) (args : List Str) :
    (handle_redirection os st args).2.2 =
      { st with
        trace := (handle_redirection os st args).2.2.trace
        out := (handle_redirection os st args).2.2.out
        err := (handle_redirection os st args).2.2.err } :=
  redirection_loop_frame os _ _ _ _

/-- The return value and the vector `handle_redirection` leaves do not depend on
the state of the process. -/
theorem redirection_loop_indep (os : OS) (fuel : Nat) :
    ∀ (i : Nat) (args : List Str) (st st1 : Shell),
      (redirection_loop os fuel i args st).1 = (redirection_loop os fuel i args st1).1 ∧
      (redirection_loop os fuel i args st).2.1 = (redirection_loop os fuel i args st1).2.1 := by
  induction fuel with
  | zero => intro i args st st1; exact ⟨rfl, rfl⟩
  | succ fuel ih =>
    intro i args st st1
    unfold redirection_loop
    cases hi : args[i]? with
    | none => exact ⟨rfl, rfl⟩
    | some a =>
      simp only
      split_ifs
      · exact ⟨rfl, rfl⟩
      · exact ⟨rfl, rfl⟩
      · exact ⟨rfl, rfl⟩
      · exact ih (i + 1) args st st1

theorem handle_redirection_indep (os : OS) (st st1 : Shell) (args : List Str) :
    (handle_redirection os st args).1 = (handle_redirection os st1 args).1 ∧
    (handle_redirection os st args).2.1 = (handle_redirection os st1 args).2.1 :=
  redirection_loop_indep os _ _ _ _ _

theorem command_cd_frame (os : OS) (st : Shell) (args : List Str) :
    command_cd os st args =
      { st with
        trace := (command_cd os st args).trace
        cwd := (command_cd os st args).cwd } := by
  unfold command_cd
  simp only
  split_ifs
  · rfl
  · cases os.chdir (st.log (Event.call Fn.command_cd args)).cwd (args.getD 1 []) <;> rfl

/-! ## The executor when resolution fails -/

/-- The executor on a command that no directory of the search path resolves. -/
theorem command_execute_not_found (os : OS) (st : Shell) (cmd : Str) (rest : List Str)
    (hnone : search_loop os st.search_paths cmd st.num_paths 0 = none) :
    command_execute os st (cmd :: rest) =
      { st with
        trace := st.trace ++
          if os.fork_ok (st.trace.length + 1) then
            [tag st.depth (Event.call Fn.command_execute (cmd :: rest)),
             tag st.depth (Event.fork (cmd :: rest) true),
             tag (st.depth + 1) (Event.error st.err),
             tag (st.depth + 1) (Event.exit 1),
             tag st.depth Event.wait]
          else
            [tag st.depth (Event.call Fn.command_execute (cmd :: rest)),
             tag st.depth (Event.fork (cmd :: rest) false),
             tag st.depth (Event.error st.err)] } := by
  by_cases hfork : os.fork_ok (st.trace.length + 1) = true
  · simp [command_execute, command_execute_child, Shell.log, Shell.report, Shell.exit,
      hfork, hnone]
  · have hfalse : os.fork_ok (st.trace.length + 1) = false := by simpa using hfork
    simp [command_execute, Shell.log, Shell.report, hfalse]

/-- Counterexample to C14 as stated: the command `nosuch` resolves to nothing in
the search path `["/bin"]`, and `command_execute` forks all the same: the child is
created, reports the error and exits with 1, and the parent waits for it. -/
theorem command_execute_forks_first :
    search_loop os_ls (initial []).search_paths "nosuch".toList (initial []).num_paths 0 = none ∧
    (command_execute os_ls (initial []) ["nosuch".toList]).trace =
      [Event.call Fn.command_execute ["nosuch".toList],
       Event.fork ["nosuch".toList] true,
       Event.in_child (Event.error Stream.orig_stderr),
       Event.in_child (Event.exit 1),
       Event.wait] := by
  constructor
  · decide
  · decide

/-- C14, amended: when the command handed to `command_execute` resolves to no
executable candidate, the error is reported exactly once and no program is
executed; `fork` is issued before the search: when it succeeds the search runs
in the child, which reports the error and exits with 1 while the parent waits,
and when it fails the parent reports the error. -/
theorem command_execute_unresolved (os : OS) (st : Shell) (cmd : Str) (rest : List Str)
    (hnone : search_loop os st.search_paths cmd st.num_paths 0 = none) :
    (os.fork_ok (st.trace.length + 1) = true →
      command_execute os st (cmd :: rest) =
        { st with
          trace := st.trace ++
            [tag st.depth (Event.call Fn.command_execute (cmd :: rest)),
             tag st.depth (Event.fork (cmd :: rest) true),
             tag (st.depth + 1) (Event.error st.err),
             tag (st.depth + 1) (Event.exit 1),
             tag st.depth Event.wait] }) ∧
    (os.fork_ok (st.trace.length + 1) = false →
      command_execute os st (cmd :: rest) =
        { st with
          trace := st.trace ++
            [tag st.depth (Event.call Fn.command_execute (cmd :: rest)),
             tag st.depth (Event.fork (cmd :: rest) false),
             tag st.depth (Event.error st.err)] }) ∧
    ((new_events st (command_execute os st (cmd :: rest))).countP
        (fun e => e.core == Event.error st.err) = 1) ∧
    (∀ e ∈ new_events st (command_execute os st (cmd :: rest)),
      ∀ p a o r ok, e.core ≠ Event.execv p a o r ok) := by
  have h := command_execute_not_found os st cmd rest hnone
  have hcore : ∀ (k : Nat) (e : Event), (tag k e).core = e.core := core_tag
  by_cases hfork : os.fork_ok (st.trace.length + 1) = true
  · rw [if_pos hfork] at h
    refine ⟨fun _ => h, fun hf => by rw [hf] at hfork; simp at hfork, ?_, ?_⟩
    · rw [h]
      simp [new_events, List.countP_cons, hcore, Event.core]
    · rw [h]
      intro e he
      simp only [new_events, List.drop_left, List.mem_cons, List.mem_singleton,
        List.not_mem_nil, or_false] at he
      intro p a o r ok
      rcases he with rfl | rfl | rfl | rfl | rfl <;> rw [hcore] <;> simp [Event.core]
  · have hfalse : os.fork_ok (st.trace.length + 1) = false := by simpa using hfork
    rw [if_neg hfork] at h
    refine ⟨fun hf => absurd hf hfork, fun _ => h, ?_, ?_⟩
    · rw [h]
      simp [new_events, List.countP_cons, hcore, Event.core]
    · rw [h]
      intro e he
      simp only [new_events, List.drop_left, List.mem_cons, List.mem_singleton,
        List.not_mem_nil, or_false] at he
      intro p a o r ok
      rcases he with rfl | rfl | rfl <;> rw [hcore] <;> simp [Event.core]

/-- Witness of C14: with an empty search path the command `ls` is not resolved; the
child created by `fork` reports the error. -/
theorem command_execute_unresolved_witness :
    command_execute os_ls { initial [] with search_paths := [], num_paths := 0 } ["ls".toList] =
      { initial [] with
        search_paths := []
        num_paths := 0
        trace := [Event.call Fn.command_execute ["ls".toList],
          Event.fork ["ls".toList] true,
          Event.in_child (Event.error Stream.orig_stderr),
          Event.in_child (Event.exit 1),
          Event.wait] } :=
  (command_execute_unresolved os_ls { initial [] with search_paths := [], num_paths := 0 }
    "ls".toList [] rfl).1 rfl

/-! ## The executor on an empty vector -/

/-- C16, the code at the failing inputs `> f` and `> f &`: `handle_redirection` accepts
the vector `[">", "f"]` and cuts it at index 0, and `command_execute` is then called
on the empty vector; the child reads `args[0]`, which is NULL, as the command name. -/
theorem command_execute_on_empty_vector :
    handle_redirection os_ls (initial []) [['>'], ['f']] =
      (0, [],
        { initial [] with
          out := Stream.file ['f']
          err := Stream.file ['f']
          trace := [Event.call Fn.handle_redirection [['>'], ['f']],
            Event.open_file ['f'] true, Event.redirect ['f']] }) ∧
    (run_line os_ls (initial []) "> f".toList).trace =
      [Event.call Fn.handle_redirection [['>'], ['f']],
       Event.open_file ['f'] true,
       Event.redirect ['f'],
       Event.call Fn.command_execute [],
       Event.fork [] true,
       Event.in_child Event.null_command,
       Event.wait] ∧
    (run_line os_ls (initial []) "> f &".toList).trace =
      [Event.call Fn.handle_parallel_commands ["> f &".toList],
       Event.fork [['>'], ['f']] true,
       Event.in_child (Event.call Fn.handle_redirection [['>'], ['f']]),
       Event.in_child (Event.open_file ['f'] true),
       Event.in_child (Event.redirect ['f']),
       Event.in_child (Event.call Fn.command_execute []),
       Event.in_child (Event.fork [] true),
       Event.in_child (Event.in_child Event.null_command),
       Event.in_child Event.wait,
       Event.in_child (Event.exit 0),
       Event.wait] := by
  refine ⟨?_, ?_, ?_⟩
  · decide
  · decide
  · decide

/-! ## The search path across lines -/

theorem wait_loop_frame (n : Nat) : ∀ st : Shell,
    wait_loop n st = { st with trace := (wait_loop n st).trace } := by
  induction n with
  | zero => intro st; rfl
  | succ n ih =>
    intro st
    rw [wait_loop, ih (st.log Event.wait)]
    rfl

theorem spawn_loop_frame (os : OS) (commands : List Str) : ∀ st : Shell,
    spawn_loop os commands st = { st with trace := (spawn_loop os commands st).trace } := by
  induction commands with
  | nil => intro st; rfl
  | cons command commands ih =>
    intro st
    cases htok : (split_to_args command).tokens with
    | nil =>
      have hrun : spawn_loop os (command :: commands) st = spawn_loop os commands st := by
        simp only [spawn_loop, htok]
      rw [hrun]; exact ih st
    | cons a as =>
      by_cases hfork : os.fork_ok st.trace.length = true
      · have hrun : spawn_loop os (command :: commands) st = spawn_loop os commands
            { st with trace := (segment_child os
              { st.log (Event.fork (a :: as) true) with depth := st.depth + 1 } (a :: as)).trace } := by
          simp only [spawn_loop, htok, hfork, if_true]
        rw [hrun, ih]
      · have hrun : spawn_loop os (command :: commands) st =
            spawn_loop os commands (st.log (Event.fork (a :: as) false)) := by
          simp only [spawn_loop, htok, hfork, Bool.false_eq_true, if_false]
        rw [hrun, ih]
        rfl

/-- The coordinator returns the state it was given, with a longer log. -/
theorem handle_parallel_commands_frame (os : OS) (st : Shell) (line : Str) :
    handle_parallel_commands os st line =
      { st with trace := (handle_parallel_commands os st line).trace } := by
  unfold handle_parallel_commands
  simp only
  rw [wait_loop_frame, spawn_loop_frame]
  rfl

/-- The external path of main returns the state it was given, with a longer log. -/
theorem external_path_frame (os : OS) (st : Shell) (args : List Str) :
    ({ (if (handle_redirection os st args).1 = 0 then
          command_execute os (handle_redirection os st args).2.2 (handle_redirection os st args).2.1
        else (handle_redirection os st args).2.2) with
        out := st.out, err := st.err } : Shell) =
      { st with
        trace := (if (handle_redirection os st args).1 = 0 then
          command_execute os (handle_redirection os st args).2.2
            (handle_redirection os st args).2.1
          else (handle_redirection os st args).2.2).trace } := by
  split_ifs
  · rw [command_execute_frame, handle_redirection_frame]
  · rw [handle_redirection_frame]

/-- Every line other than a single-mode line whose first token is `path` leaves
`search_paths` and `num_paths` as they were. -/
theorem run_line_keeps_path (os : OS) (st : Shell) (line : Str)
    (h : ¬ ('&' ∉ line ∧ (split_to_args line).tokens.head? = some "path".toList)) :
    (run_line os st line).search_paths = st.search_paths ∧
    (run_line os st line).num_paths = st.num_paths := by
  by_cases hamp : '&' ∈ line
  · have hrun : run_line os st line = handle_parallel_commands os st line := by
      unfold run_line; rw [if_pos hamp]
    rw [hrun, handle_parallel_commands_frame]
    exact ⟨rfl, rfl⟩
  · cases htok : (split_to_args line).tokens with
    | nil =>
      have hrun : run_line os st line = st := by
        unfold run_line; rw [if_neg hamp]; simp only [htok]
      rw [hrun]; exact ⟨rfl, rfl⟩
    | cons a0 rest =>
      have hnp : a0 ≠ "path".toList := by
        intro heq
        exact h ⟨hamp, by rw [htok, heq]; rfl⟩
      rw [run_line_single os st line a0 rest hamp htok]
      split_ifs
      · exact ⟨rfl, rfl⟩
      · exact ⟨rfl, rfl⟩
      · rw [command_cd_frame]; exact ⟨rfl, rfl⟩
      · have hx : (command_execute os (handle_redirection os st (a0 :: rest)).2.2
            (handle_redirection os st (a0 :: rest)).2.1).search_paths = st.search_paths ∧
            (command_execute os (handle_redirection os st (a0 :: rest)).2.2
              (handle_redirection os st (a0 :: rest)).2.1).num_paths = st.num_paths := by
          rw [command_execute_frame, handle_redirection_frame]
          exact ⟨rfl, rfl⟩
        exact hx
      · have hx : (handle_redirection os st (a0 :: rest)).2.2.search_paths = st.search_paths ∧
            (handle_redirection os st (a0 :: rest)).2.2.num_paths = st.num_paths := by
          rw [handle_redirection_frame]
          exact ⟨rfl, rfl⟩
        exact hx

/-- C13: for every state and every line, if the line is not a single-mode line
whose first token is exactly `path`, then `search_paths` and `num_paths` after the
line are what they were before it. -/
theorem search_path_written_by_path_only (os : OS) (st : Shell) (line : Str)
    (h : ¬ ('&' ∉ line ∧ (split_to_args line).tokens.head? = some "path".toList)) :
    (run_line os st line).search_paths = st.search_paths ∧
    (run_line os st line).num_paths = st.num_paths :=
  run_line_keeps_path os st line h

/-- Witness of C13: `cd /tmp`, `exit now`, `ls > out`, `ls >`, a blank line and
`path /x & ls` leave the search path `["/bin"]`. -/
theorem search_path_written_by_path_only_witness :
    (run_line os_ls (initial []) "cd /tmp".toList).search_paths = ["/bin".toList] ∧
    (run_line os_ls (initial []) "exit now".toList).search_paths = ["/bin".toList] ∧
    (run_line os_ls (initial []) "ls > out".toList).search_paths = ["/bin".toList] ∧
    (run_line os_ls (initial []) "ls >".toList).search_paths = ["/bin".toList] ∧
    (run_line os_ls (initial []) "  ".toList).search_paths = ["/bin".toList] ∧
    (run_line os_ls (initial []) "path /x & ls".toList).search_paths = ["/bin".toList] :=
  ⟨(search_path_written_by_path_only os_ls (initial []) "cd /tmp".toList (by decide)).1,
   (search_path_written_by_path_only os_ls (initial []) "exit now".toList (by decide)).1,
   (search_path_written_by_path_only os_ls (initial []) "ls > out".toList (by decide)).1,
   (search_path_written_by_path_only os_ls (initial []) "ls >".toList (by decide)).1,
   (search_path_written_by_path_only os_ls (initial []) "  ".toList (by decide)).1,
   (search_path_written_by_path_only os_ls (initial []) "path /x & ls".toList (by decide)).1⟩

/-- The built-in `path`: the new search path is the vector without its first entry. -/
theorem command_path_eq (st : Shell) (name : Str) (as : List Str) :
    command_path st (name :: as) =
      { st with
        search_paths := as
        num_paths := as.length
        trace := st.trace ++ [tag st.depth (Event.call Fn.command_path (name :: as))] } := by
  unfold command_path
  simp only [count_loop_args, copy_args, Shell.log]

/-- One line keeps the search path well formed. -/
theorem run_line_path_ok (os : OS) (st : Shell) (line : Str) (h : path_ok st) :
    path_ok (run_line os st line) := by
  by_cases hp : '&' ∉ line ∧ (split_to_args line).tokens.head? = some "path".toList
  · obtain ⟨hamp, hhead⟩ := hp
    cases htok : (split_to_args line).tokens with
    | nil => rw [htok] at hhead; simp at hhead
    | cons a0 rest =>
      rw [htok] at hhead
      simp only [List.head?_cons, Option.some.injEq] at hhead
      subst hhead
      rw [run_line_single os st line _ rest hamp htok,
        if_neg (by decide), if_neg (by decide), if_pos rfl, command_path_eq]
      refine ⟨?_, rfl⟩
      intro p hp
      apply spec_fields_mem line p
      rw [← split_to_args_tokens, htok]
      exact List.mem_cons_of_mem _ hp
  · obtain ⟨h1, h2⟩ := run_line_keeps_path os st line hp
    unfold path_ok
    rw [h1, h2]
    exact h

theorem initial_path_ok (cwd : Str) : path_ok (initial cwd) := by
  refine ⟨?_, rfl⟩
  intro p hp
  simp only [initial, List.mem_singleton] at hp
  subst hp
  decide

theorem main_loop_path_ok (input : List (OS × Str)) : ∀ st : Shell, path_ok st →
    path_ok (main_loop st input) := by
  induction input with
  | nil => intro st h; exact h
  | cons x rest ih =>
    intro st h
    obtain ⟨os, raw⟩ := x
    simp only [main_loop]
    split_ifs
    · exact run_line_path_ok os st _ h
    · exact ih _ (run_line_path_ok os st _ h)

/-- C17: in every state the interpreter reaches from its initial state (search
path `["/bin"]`) by processing lines, and in the state in which main ends on any
input, every entry of the search path is non-empty and holds no space and no
tab, and `num_paths` is the number of entries. -/
theorem reachable_path_ok :
    (∀ st, Reachable st → path_ok st) ∧
    (∀ (cwd : Str) (input : List (OS × Str)), path_ok (main_loop (initial cwd) input)) := by
  constructor
  · intro st h
    induction h with
    | start cwd => exact initial_path_ok cwd
    | step os st raw _ _ ih => exact run_line_path_ok os st _ ih
  · intro cwd input
    exact main_loop_path_ok input _ (initial_path_ok cwd)

/-- Witness of C17: after the line `path /usr/bin  /opt` the state is reachable and
its search path is well formed. -/
theorem reachable_path_ok_witness :
    Reachable (run_line os_ls (initial []) (strip_newline "path /usr/bin  /opt\n".toList)) ∧
    path_ok (run_line os_ls (initial []) (strip_newline "path /usr/bin  /opt\n".toList)) ∧
    (run_line os_ls (initial []) (strip_newline "path /usr/bin  /opt\n".toList)).search_paths =
      ["/usr/bin".toList, "/opt".toList] :=
  ⟨Reachable.step os_ls (initial []) _ (Reachable.start []) rfl,
   reachable_path_ok.1 _ (Reachable.step os_ls (initial []) _ (Reachable.start []) rfl),
   by decide⟩

/-! ## Scope of a redirection -/

/-- Every `execv` logged under `command_execute` carries the vector the function was
called on and the bindings of descriptors 1 and 2 of the calling process. -/
theorem command_execute_execv (os : OS) (st : Shell) (args : List Str) :
    ∀ e ∈ new_events st (command_execute os st args),
      ∀ p a o r ok, e.core = Event.execv p a o r ok → a = args ∧ o = st.out ∧ r = st.err := by
  intro e he p a o r ok hcore
  obtain ⟨k, e0, -, rfl, hK⟩ :=
    (command_execute_logs os 0 st args (Nat.zero_le _)).new_events e he
  rw [core_tag] at hcore
  rcases hK with rfl | ⟨ok1, rfl⟩ | ⟨p1, ok1, rfl⟩ | rfl | rfl | rfl | rfl <;>
    simp [Event.core] at hcore
  exact ⟨hcore.2.1.symm, hcore.2.2.1.symm, hcore.2.2.2.1.symm⟩

/-- When `fork` succeeds and the search finds `p`, the child calls `execv` on `p`. -/
theorem command_execute_found (os : OS) (st : Shell) (cmd : Str) (rest : List Str) (p : Str)
    (hfork : os.fork_ok (st.trace.length + 1) = true)
    (hp : search_loop os st.search_paths cmd st.num_paths 0 = some p) :
    tag (st.depth + 1) (Event.execv p (cmd :: rest) st.out st.err (os.execv_ok p)) ∈
      new_events st (command_execute os st (cmd :: rest)) := by
  by_cases hx : os.execv_ok p = true
  · simp [new_events, command_execute, command_execute_child, Shell.log, hfork, hp, hx]
  · have hfalse : os.execv_ok p = false := by simpa using hx
    simp [new_events, command_execute, command_execute_child, Shell.log, Shell.report,
      Shell.exit, hfork, hp, hfalse]

/-- Single mode, a well-formed redirection whose file opens: the command before
the `>` is executed under the new bindings, and the old ones are put back. -/
theorem run_line_redirected (os : OS) (st : Shell) (line : Str) (pre : List Str) (f : Str)
    (hamp : '&' ∉ line) (htok : (split_to_args line).tokens = pre ++ [['>'], f])
    (hpre : ∀ a ∈ pre, a ≠ ['>'])
    (hne : pre.head? ≠ some "exit".toList ∧ pre.head? ≠ some "cd".toList ∧
      pre.head? ≠ some "path".toList)
    (hopen : os.open_ok f = true) :
    run_line os st line =
      { command_execute os
          { st with
            out := Stream.file f
            err := Stream.file f
            trace := st.trace ++
              [tag st.depth (Event.call Fn.handle_redirection (pre ++ [['>'], f])),
               tag st.depth (Event.open_file f true),
               tag st.depth (Event.redirect f)] } pre with
        out := st.out, err := st.err } := by
  have hr := handle_redirection_one_token os st pre f hpre
  rw [if_pos hopen] at hr
  cases pre with
  | nil =>
    have hrun := run_line_single os st line ['>'] [f] hamp (by simpa using htok)
    rw [if_neg (by decide), if_neg (by decide), if_neg (by decide)] at hrun
    rw [hrun]
    simp only [List.nil_append] at hr
    rw [hr]
    simp
  | cons a pre =>
    have hrun := run_line_single os st line a (pre ++ [['>'], f]) hamp (by simpa using htok)
    simp only [List.head?_cons, ne_eq, Option.some.injEq] at hne
    rw [if_neg hne.1, if_neg hne.2.1, if_neg hne.2.2] at hrun
    rw [hrun]
    simp only [List.cons_append] at hr
    rw [hr]
    simp

/-- A single-mode line leaves descriptors 1 and 2 of the interpreter bound as they were. -/
theorem run_line_single_bindings (os : OS) (st : Shell) (line : Str) (hamp : '&' ∉ line) :
    (run_line os st line).out = st.out ∧ (run_line os st line).err = st.err := by
  cases htok : (split_to_args line).tokens with
  | nil =>
    have hrun : run_line os st line = st := by
      unfold run_line; rw [if_neg hamp]; simp only [htok]
    rw [hrun]; exact ⟨rfl, rfl⟩
  | cons a0 rest =>
    rw [run_line_single os st line a0 rest hamp htok]
    split_ifs
    · exact ⟨rfl, rfl⟩
    · exact ⟨rfl, rfl⟩
    · rw [command_cd_frame]; exact ⟨rfl, rfl⟩
    · rw [command_path_eq]; exact ⟨rfl, rfl⟩
    · exact ⟨rfl, rfl⟩
    · exact ⟨rfl, rfl⟩

/-- C15: for every single-mode line, whatever becomes of it, descriptors 1 and 2 of
the interpreter are bound after the line as they were before it; and when the
line is a command followed by `>` and a file that opens, every `execv` issued for
the line runs the command before the `>` with descriptors 1 and 2 both bound to
that file, such an `execv` being issued as soon as `fork` succeeds and the command
resolves. -/
theorem redirection_scoped (os : OS) (st : Shell) (line : Str) (hamp : '&' ∉ line)
    (hd : st.depth = 0) :
    (run_line os st line).out = st.out ∧ (run_line os st line).err = st.err ∧
    (∀ pre f, (split_to_args line).tokens = pre ++ [['>'], f] → (∀ a ∈ pre, a ≠ ['>']) →
      (pre.head? ≠ some "exit".toList ∧ pre.head? ≠ some "cd".toList ∧
        pre.head? ≠ some "path".toList) →
      os.open_ok f = true →
      (∀ e ∈ new_events st (run_line os st line),
        ∀ p a o r ok, e.core = Event.execv p a o r ok →
          a = pre ∧ o = Stream.file f ∧ r = Stream.file f) ∧
      (∀ cmd rest p, pre = cmd :: rest → os.fork_ok (st.trace.length + 4) = true →
        search_loop os st.search_paths cmd st.num_paths 0 = some p →
        Event.in_child (Event.execv p pre (Stream.file f) (Stream.file f) (os.execv_ok p)) ∈
          new_events st (run_line os st line))) := by
  obtain ⟨hout, herr⟩ := run_line_single_bindings os st line hamp
  refine ⟨hout, herr, ?_⟩
  intro pre f htok hpre hne hopen
  have hrun := run_line_redirected os st line pre f hamp htok hpre hne hopen
  obtain ⟨-, m, hm, -⟩ := command_execute_deep os 0
    { st with
      out := Stream.file f
      err := Stream.file f
      trace := st.trace ++
        [tag st.depth (Event.call Fn.handle_redirection (pre ++ [['>'], f])),
         tag st.depth (Event.open_file f true),
         tag st.depth (Event.redirect f)] } pre (Nat.zero_le _)
  have hnew : new_events st (run_line os st line) =
      [tag st.depth (Event.call Fn.handle_redirection (pre ++ [['>'], f])),
       tag st.depth (Event.open_file f true),
       tag st.depth (Event.redirect f)] ++ m := by
    apply new_events_append
    rw [hrun]
    show (command_execute os _ pre).trace = _
    rw [hm, List.append_assoc]
  have hm2 : m = new_events
      { st with
        out := Stream.file f
        err := Stream.file f
        trace := st.trace ++
          [tag st.depth (Event.call Fn.handle_redirection (pre ++ [['>'], f])),
           tag st.depth (Event.open_file f true),
           tag st.depth (Event.redirect f)] } (command_execute os _ pre) :=
    (new_events_append _ _ m hm).symm
  constructor
  · intro e he p a o r ok hcore
    rw [hnew] at he
    simp only [List.cons_append, List.nil_append, List.mem_cons] at he
    rcases he with rfl | rfl | rfl | he
    · rw [core_tag] at hcore; simp [Event.core] at hcore
    · rw [core_tag] at hcore; simp [Event.core] at hcore
    · rw [core_tag] at hcore; simp [Event.core] at hcore
    · rw [hm2] at he
      exact command_execute_execv os _ pre e he p a o r ok hcore
  · intro cmd rest p hpre2 hfork hp
    subst hpre2
    rw [hnew]
    apply List.mem_append_right
    rw [hm2]
    have := command_execute_found os
      { st with
        out := Stream.file f
        err := Stream.file f
        trace := st.trace ++
          [tag st.depth (Event.call Fn.handle_redirection ((cmd :: rest) ++ [['>'], f])),
           tag st.depth (Event.open_file f true),
           tag st.depth (Event.redirect f)] } cmd rest p
      (by simpa using hfork) hp
    simpa [hd, tag] using this

/-- Witness of C15: `ls -l > out` runs `/bin/ls` with descriptors 1 and 2 bound to `out`,
and the interpreter has its own bindings back afterwards. -/
theorem redirection_scoped_witness :
    (run_line os_ls (initial []) "ls -l > out".toList).out = Stream.orig_stdout ∧
    (run_line os_ls (initial []) "ls -l > out".toList).err = Stream.orig_stderr ∧
    Event.in_child (Event.execv "/bin/ls".toList ["ls".toList, "-l".toList]
      (Stream.file "out".toList) (Stream.file "out".toList) true) ∈
        new_events (initial []) (run_line os_ls (initial []) "ls -l > out".toList) :=
  ⟨(redirection_scoped os_ls (initial []) "ls -l > out".toList (by decide) rfl).1,
   (redirection_scoped os_ls (initial []) "ls -l > out".toList (by decide) rfl).2.1,
   ((redirection_scoped os_ls (initial []) "ls -l > out".toList (by decide) rfl).2.2
      ["ls".toList, "-l".toList] "out".toList (by decide) (by decide) (by decide) rfl).2
      "ls".toList ["-l".toList] "/bin/ls".toList rfl rfl (by decide)⟩

/-! ## The coordinator: children, waits and what is left untouched -/

/-- The log after `command_execute` starts with the entry of the call. -/
theorem command_execute_first (os : OS) (st : Shell) (args : List Str) :
    ∃ rest, (command_execute os st args).trace =
      st.trace ++ tag st.depth (Event.call Fn.command_execute args) :: rest := by
  unfold command_execute
  simp only
  split_ifs
  · obtain ⟨-, m, hm, -⟩ := command_execute_child_deep os 0
      { (st.log (Event.call Fn.command_execute args)).log (Event.fork args true) with
        depth := (st.log (Event.call Fn.command_execute args)).depth + 1 } args (Nat.zero_le _)
    refine ⟨tag st.depth (Event.fork args true) :: (m ++ [tag st.depth Event.wait]), ?_⟩
    show (command_execute_child os _ args).trace ++ [tag st.depth Event.wait] = _
    rw [hm]
    simp [Shell.log]
  · exact ⟨[tag st.depth (Event.fork args false), tag st.depth (Event.error st.err)], by
      simp [Shell.log, Shell.report]⟩

/-- The child of a segment calls `command_execute` on the vector `handle_redirection`
leaves, whatever `handle_redirection` returned. -/
theorem segment_child_calls_executor (os : OS) (st : Shell) (args : List Str) :
    tag st.depth (Event.call Fn.command_execute (handle_redirection os st args).2.1) ∈
      new_events st (segment_child os st args) := by
  obtain ⟨hd1, m1, hm1, -⟩ := handle_redirection_deep os 0 st args (Nat.zero_le _)
  obtain ⟨rest, hrest⟩ := command_execute_first os (handle_redirection os st args).2.2
    (handle_redirection os st args).2.1
  have htrace : (segment_child os st args).trace =
      st.trace ++ (m1 ++ tag st.depth (Event.call Fn.command_execute
        (handle_redirection os st args).2.1) :: (rest ++ [tag st.depth (Event.exit 0)])) := by
    unfold segment_child
    simp only [Shell.exit, Shell.log]
    rw [hrest, hm1, command_execute_frame, hd1]
    simp
  rw [new_events_append st _ _ htrace]
  simp

theorem segment_child_not_builtin (os : OS) (st : Shell) (args : List Str) :
    GrowsBy (fun e => e.is_builtin = false) st (segment_child os st args) := by
  have h1 := (handle_redirection_logs os 0 st args (Nat.zero_le _)).mono
    (fun e he => redir_event_not_builtin _ _ e he)
  have h2 := (command_execute_logs os 0 (handle_redirection os st args).2.2
    (handle_redirection os st args).2.1 (Nat.zero_le _)).mono
    (fun e he => exec_event_not_builtin _ _ _ _ e he)
  have h3 : GrowsBy (fun e => e.is_builtin = false)
      (command_execute os (handle_redirection os st args).2.2 (handle_redirection os st args).2.1)
      ((command_execute os (handle_redirection os st args).2.2
        (handle_redirection os st args).2.1).exit 0) := by
    obtain ⟨g1, m, g2, g3⟩ := log_grows (fun e => e.is_builtin = false)
      (command_execute os (handle_redirection os st args).2.2 (handle_redirection os st args).2.1)
      (Event.exit 0) (by show (tag _ (Event.exit 0)).is_builtin = false; rw [is_builtin_tag]; rfl)
    exact ⟨g1, m, g2, g3⟩
  exact (h1.trans h2).trans h3

/-- The spawning loop run by the interpreter: what it logs is made of its own
forks and of events of children, at most one fork per segment; no built-in runs
in any process; and every child created calls `command_execute`. -/
theorem spawn_loop_shape (os : OS) (st0 : Shell) (commands : List Str) :
    ∀ st : Shell, st.depth = 0 →
      ∃ more, (spawn_loop os commands st).trace = st.trace ++ more ∧
        (∀ e ∈ more, (∃ a ok, e = Event.fork a ok) ∨ ∃ e0, e = Event.in_child e0) ∧
        (forks_of more).length ≤ commands.length ∧
        (∀ e ∈ more, e.is_builtin = false) ∧
        (∀ args, Event.fork args true ∈ more →
          Event.in_child (Event.call Fn.command_execute
            (handle_redirection os st0 args).2.1) ∈ more) := by
  induction commands with
  | nil =>
    intro st hd
    exact ⟨[], by simp [spawn_loop], by simp, by simp [forks_of], by simp, by simp⟩
  | cons command commands ih =>
    intro st hd
    cases htok : (split_to_args command).tokens with
    | nil =>
      obtain ⟨more, h1, h2, h3, h4, h5⟩ := ih st hd
      have hrun : spawn_loop os (command :: commands) st = spawn_loop os commands st := by
        simp only [spawn_loop, htok]
      rw [hrun]
      exact ⟨more, h1, h2, by simp only [List.length_cons]; omega, h4, h5⟩
    | cons a as =>
      by_cases hfork : os.fork_ok st.trace.length = true
      · have hrun : spawn_loop os (command :: commands) st = spawn_loop os commands
            { st with trace := (segment_child os
              { st.log (Event.fork (a :: as) true) with depth := st.depth + 1 } (a :: as)).trace } := by
          simp only [spawn_loop, htok, hfork, if_true]
        obtain ⟨-, m, hm, hdeep⟩ := segment_child_deep os 1
          { st.log (Event.fork (a :: as) true) with depth := st.depth + 1 } (a :: as)
          (by show 1 ≤ st.depth + 1; omega)
        obtain ⟨-, m2, hm2, hnb⟩ := segment_child_not_builtin os
          { st.log (Event.fork (a :: as) true) with depth := st.depth + 1 } (a :: as)
        have hmm : m2 = m := List.append_cancel_left (hm2.symm.trans hm)
        subst hmm
        have hcall := segment_child_calls_executor os
          { st.log (Event.fork (a :: as) true) with depth := st.depth + 1 } (a :: as)
        rw [new_events_append _ _ m2 hm,
          (handle_redirection_indep os _ st0 (a :: as)).2] at hcall
        have hcall2 : Event.in_child (Event.call Fn.command_execute
            (handle_redirection os st0 (a :: as)).2.1) ∈ m2 := by
          have hdep : ({ st.log (Event.fork (a :: as) true) with depth := st.depth + 1 } :
              Shell).depth = 1 := by show st.depth + 1 = 1; omega
          rw [hdep] at hcall
          exact hcall
        obtain ⟨more, h1, h2, h3, h4, h5⟩ := ih
          { st with trace := (segment_child os
            { st.log (Event.fork (a :: as) true) with depth := st.depth + 1 } (a :: as)).trace } hd
        rw [hrun]
        refine ⟨Event.fork (a :: as) true :: (m2 ++ more), ?_, ?_, ?_, ?_, ?_⟩
        · rw [h1]
          show (segment_child os _ (a :: as)).trace ++ more = _
          rw [hm]
          simp [Shell.log, hd, tag]
        · intro e he
          simp only [List.mem_cons, List.mem_append] at he
          rcases he with rfl | he | he
          · exact Or.inl ⟨_, _, rfl⟩
          · obtain ⟨e0, rfl⟩ := hdeep e he
            exact Or.inr ⟨_, rfl⟩
          · exact h2 e he
        · have : forks_of (Event.fork (a :: as) true :: (m2 ++ more)) =
              (a :: as) :: forks_of (m2 ++ more) := rfl
          rw [this, forks_of_append, forks_of_deep m2 hdeep]
          simp only [List.nil_append, List.length_cons]
          omega
        · intro e he
          simp only [List.mem_cons, List.mem_append] at he
          rcases he with rfl | he | he
          · rfl
          · exact hnb e he
          · exact h4 e he
        · intro args hargs
          simp only [List.mem_cons, List.mem_append] at hargs
          rcases hargs with heq | hin | hin
          · have hargs2 : args = a :: as := by
              injection heq
            subst hargs2
            exact List.mem_cons_of_mem _ (List.mem_append_left _ hcall2)
          · obtain ⟨e0, he0⟩ := hdeep _ hin
            simp [tag] at he0
          · exact List.mem_cons_of_mem _ (List.mem_append_right _ (h5 args hin))
      · have hrun : spawn_loop os (command :: commands) st =
            spawn_loop os commands (st.log (Event.fork (a :: as) false)) := by
          simp only [spawn_loop, htok, hfork, Bool.false_eq_true, if_false]
        obtain ⟨more, h1, h2, h3, h4, h5⟩ := ih (st.log (Event.fork (a :: as) false)) hd
        rw [hrun]
        refine ⟨Event.fork (a :: as) false :: more, ?_, ?_, ?_, ?_, ?_⟩
        · rw [h1]; simp [Shell.log, hd, tag]
        · intro e he
          simp only [List.mem_cons] at he
          rcases he with rfl | he
          · exact Or.inl ⟨_, _, rfl⟩
          · exact h2 e he
        · have : forks_of (Event.fork (a :: as) false :: more) = (a :: as) :: forks_of more := rfl
          rw [this]
          simp only [List.length_cons]
          omega
        · intro e he
          simp only [List.mem_cons] at he
          rcases he with rfl | he
          · rfl
          · exact h4 e he
        · intro args hargs
          simp only [List.mem_cons] at hargs
          rcases hargs with heq | hin
          · simp at heq
          · exact List.mem_cons_of_mem _ (h5 args hin)

/-- The log of `handle_parallel_commands` run by the interpreter: the entry, then
the part of the spawning loop, then the waits, one per segment collected. -/
theorem parallel_shape (os : OS) (st : Shell) (line : Str) (hd : st.depth = 0) :
    ∃ spawned n, new_events st (handle_parallel_commands os st line) =
        Event.call Fn.handle_parallel_commands [line] ::
          (spawned ++ List.replicate n Event.wait) ∧
      (∀ e ∈ spawned, (∃ a ok, e = Event.fork a ok) ∨ ∃ e0, e = Event.in_child e0) ∧
      (forks_of spawned).length ≤ n ∧
      (∀ e ∈ spawned, e.is_builtin = false) ∧
      (∀ args, Event.fork args true ∈ spawned →
        Event.in_child (Event.call Fn.command_execute
          (handle_redirection os st args).2.1) ∈ spawned) := by
  obtain ⟨more, h1, h2, h3, h4, h5⟩ := spawn_loop_shape os st
    (commands_loop (line.length + 1) (strtok ['&'] line) [])
    (st.log (Event.call Fn.handle_parallel_commands [line])) hd
  have hdep : (spawn_loop os (commands_loop (line.length + 1) (strtok ['&'] line) [])
      (st.log (Event.call Fn.handle_parallel_commands [line]))).depth = 0 := by
    rw [spawn_loop_frame]; exact hd
  have hw := wait_loop_spec (commands_loop (line.length + 1) (strtok ['&'] line) []).length _ hdep
  refine ⟨more, (commands_loop (line.length + 1) (strtok ['&'] line) []).length,
    ?_, h2, h3, h4, h5⟩
  apply new_events_append
  unfold handle_parallel_commands
  simp only
  rw [hw, h1]
  simp [Shell.log, hd, tag]

theorem children_created_le_forks (l : List Event) :
    children_created l ≤ (forks_of l).length := by
  induction l with
  | nil => simp [children_created, forks_of]
  | cons e l ih =>
    unfold children_created forks_of at ih ⊢
    cases e with
    | fork args ok =>
      cases ok with
      | true => simp only [List.countP_cons, List.filterMap_cons, List.length_cons]; simp; omega
      | false => simp only [List.countP_cons, List.filterMap_cons, List.length_cons]; simp; omega
    | _ => simpa [List.countP_cons, List.filterMap_cons] using ih

/-- C18: for every line containing `&`, the log of the interpreter in
`handle_parallel_commands` is the entry, then a part holding all its forks and no
wait of its own, then `n` waits in a row up to the return, where `n` is at least
the number of forks, hence at least the number of children it created. -/
theorem parallel_spawns_before_waits (os : OS) (st : Shell) (line : Str) (hamp : '&' ∈ line)
    (hd : st.depth = 0) :
    ∃ spawned n, new_events st (run_line os st line) =
        Event.call Fn.handle_parallel_commands [line] ::
          (spawned ++ List.replicate n Event.wait) ∧
      (∀ e ∈ spawned, (∃ a ok, e = Event.fork a ok) ∨ ∃ e0, e = Event.in_child e0) ∧
      (∀ e ∈ spawned, e ≠ Event.wait) ∧
      forks_of (new_events st (run_line os st line)) = forks_of spawned ∧
      (forks_of spawned).length ≤ n ∧
      children_created spawned ≤ n := by
  have hrun : run_line os st line = handle_parallel_commands os st line := by
    unfold run_line; rw [if_pos hamp]
  obtain ⟨spawned, n, h1, h2, h3, -, -⟩ := parallel_shape os st line hd
  rw [hrun]
  refine ⟨spawned, n, h1, h2, ?_, ?_, h3, le_trans (children_created_le_forks spawned) h3⟩
  · intro e he hw
    rcases h2 e he with ⟨a, ok, hf⟩ | ⟨e0, hc⟩
    · rw [hw] at hf; exact Event.noConfusion hf
    · rw [hw] at hc; exact Event.noConfusion hc
  · rw [h1]
    have hwait : ∀ k, forks_of (List.replicate k Event.wait) = [] := by
      intro k
      induction k with
      | zero => rfl
      | succ k ihk => rw [List.replicate_succ]; exact ihk
    have hcons : forks_of (Event.call Fn.handle_parallel_commands [line] ::
        (spawned ++ List.replicate n Event.wait)) =
        forks_of (spawned ++ List.replicate n Event.wait) := rfl
    rw [hcons, forks_of_append, hwait, List.append_nil]

/-- Witness of C18: `ls & & pwd` gives two forks and then three waits. -/
theorem parallel_spawns_before_waits_witness :
    (∃ spawned n, new_events (initial []) (run_line os_ls (initial []) "ls & & pwd".toList) =
        Event.call Fn.handle_parallel_commands ["ls & & pwd".toList] ::
          (spawned ++ List.replicate n Event.wait) ∧
      (∀ e ∈ spawned, (∃ a ok, e = Event.fork a ok) ∨ ∃ e0, e = Event.in_child e0) ∧
      (∀ e ∈ spawned, e ≠ Event.wait) ∧
      forks_of (new_events (initial []) (run_line os_ls (initial []) "ls & & pwd".toList)) =
        forks_of spawned ∧
      (forks_of spawned).length ≤ n ∧
      children_created spawned ≤ n) ∧
    forks_of (new_events (initial []) (run_line os_ls (initial []) "ls & & pwd".toList)) =
      [["ls".toList], ["pwd".toList]] ∧
    (new_events (initial []) (run_line os_ls (initial []) "ls & & pwd".toList)).drop 16 =
      [Event.wait, Event.wait, Event.wait] :=
  ⟨parallel_spawns_before_waits os_ls (initial []) "ls & & pwd".toList (by decide) rfl,
   by decide, by decide⟩

/-! ## One executor entry per child -/

theorem executor_args_append (a b : List Event) :
    executor_args (a ++ b) = executor_args a ++ executor_args b := by
  simp [executor_args, List.filterMap_append]

theorem executor_calls_eq (l : List Event) : executor_calls l = (executor_args l).length := by
  induction l with
  | nil => rfl
  | cons e l ih =>
    unfold executor_calls executor_args at ih ⊢
    rw [List.countP_cons, List.filterMap_cons, ih]
    cases e with
    | in_child e1 =>
      cases e1 with
      | call fn args => cases fn <;> simp [executor_arg]
      | _ => simp [executor_arg]
    | _ => simp [executor_arg]

/-- An event of a process at least one `fork` below, other than an entry of
`command_execute`, is no executor entry of a child. -/
theorem executor_arg_tag (k : Nat) (e0 : Event) (hk : 1 ≤ k)
    (h : ∀ a, e0 ≠ Event.call Fn.command_execute a) : executor_arg (tag k e0) = none := by
  cases k with
  | zero => omega
  | succ k =>
    cases k with
    | zero =>
      show executor_arg (Event.in_child e0) = none
      cases e0 with
      | call fn args =>
        cases fn with
        | command_execute => exact absurd rfl (h args)
        | _ => rfl
      | _ => rfl
    | succ k => rfl

theorem executor_args_none (m : List Event) (h : ∀ e ∈ m, executor_arg e = none) :
    executor_args m = [] := by
  induction m with
  | nil => rfl
  | cons e m ih =>
    unfold executor_args at ih ⊢
    rw [List.filterMap_cons, h e (List.mem_cons_self _ _)]
    exact ih (fun x hx => h x (List.mem_cons_of_mem _ hx))

theorem executor_args_deep2 (m : List Event) (h : ∀ e ∈ m, deep 2 e) :
    executor_args m = [] := by
  apply executor_args_none
  intro e he
  obtain ⟨e0, rfl⟩ := h e he
  rfl

theorem children_created_append (a b : List Event) :
    children_created (a ++ b) = children_created a + children_created b := by
  simp [children_created, List.countP_append]

theorem children_created_in_child (m : List Event) (h : ∀ e ∈ m, ∃ e0, e = Event.in_child e0) :
    children_created m = 0 := by
  induction m with
  | nil => rfl
  | cons e m ih =>
    obtain ⟨e0, rfl⟩ := h _ (List.mem_cons_self _ _)
    have := ih (fun x hx => h x (List.mem_cons_of_mem _ hx))
    unfold children_created at this ⊢
    rw [List.countP_cons, this]
    rfl

/-- Called in a child of the interpreter, `command_execute` logs one entry. -/
theorem command_execute_entry (os : OS) (st : Shell) (args : List Str) (hd : st.depth = 1) :
    executor_args (new_events st (command_execute os st args)) = [args] := by
  by_cases hfork : os.fork_ok (st.log (Event.call Fn.command_execute args)).trace.length = true
  · obtain ⟨-, m, hm, hdeep⟩ := command_execute_child_deep os 2
      { (st.log (Event.call Fn.command_execute args)).log (Event.fork args true) with
        depth := (st.log (Event.call Fn.command_execute args)).depth + 1 } args
      (by show 2 ≤ st.depth + 1; omega)
    have htrace : (command_execute os st args).trace =
        st.trace ++ ([tag 1 (Event.call Fn.command_execute args),
          tag 1 (Event.fork args true)] ++ m ++ [tag 1 Event.wait]) := by
      unfold command_execute
      simp only [hfork, if_true]
      show (command_execute_child os _ args).trace ++ [tag st.depth Event.wait] = _
      rw [hm]
      simp [Shell.log, hd]
    rw [new_events_append st _ _ htrace, executor_args_append, executor_args_append,
      executor_args_deep2 m hdeep]
    rfl
  · have hfalse : os.fork_ok (st.log (Event.call Fn.command_execute args)).trace.length =
        false := by simpa using hfork
    have htrace : (command_execute os st args).trace =
        st.trace ++ [tag 1 (Event.call Fn.command_execute args),
          tag 1 (Event.fork args false), tag 1 (Event.error st.err)] := by
      unfold command_execute
      simp only [hfalse, Bool.false_eq_true, if_false]
      simp [Shell.log, Shell.report, hd]
    rw [new_events_append st _ _ htrace]
    rfl

/-- The child of a segment logs exactly one entry of `command_execute`, on the vector
`handle_redirection` leaves. -/
theorem segment_child_entry (os : OS) (st : Shell) (args : List Str) (hd : st.depth = 1) :
    executor_args (new_events st (segment_child os st args)) =
      [(handle_redirection os st args).2.1] := by
  obtain ⟨hd1, m1, hm1, hp1⟩ := handle_redirection_logs os 1 st args (by omega)
  have hd2 : (handle_redirection os st args).2.2.depth = 1 := by rw [hd1]; exact hd
  obtain ⟨-, mc, hmc, -⟩ := command_execute_deep os 0 (handle_redirection os st args).2.2
    (handle_redirection os st args).2.1 (Nat.zero_le _)
  have hentry := command_execute_entry os (handle_redirection os st args).2.2
    (handle_redirection os st args).2.1 hd2
  rw [new_events_append _ _ mc hmc] at hentry
  have htrace : (segment_child os st args).trace =
      st.trace ++ (m1 ++ mc ++ [tag 1 (Event.exit 0)]) := by
    unfold segment_child
    simp only [Shell.exit, Shell.log]
    rw [hmc, hm1, command_execute_frame, hd1, hd]
    simp
  have hm1none : executor_args m1 = [] := by
    apply executor_args_none
    intro e he
    obtain ⟨k, e0, hk, rfl, hK⟩ := hp1 e he
    apply executor_arg_tag k e0 hk
    intro a ha
    rcases hK with ⟨b, rfl⟩ | rfl | ⟨f, ok, rfl⟩ | ⟨f, rfl⟩ <;> simp at ha
  rw [new_events_append st _ _ htrace, executor_args_append, executor_args_append,
    hm1none, hentry]
  rfl

/-- The spawning loop run by the interpreter logs one block per segment that holds
a token, in order: the fork for the token vector and, when a child is created,
the events of that child with its one entry of `command_execute`. -/
theorem spawn_loop_blocks (os : OS) (st0 : Shell) (commands : List Str) :
    ∀ st : Shell, st.depth = 0 →
      ∃ blocks, (spawn_loop os commands st).trace = st.trace ++ blocks.flatten ∧
        List.Forall₂ (segment_block os st0)
          ((commands.map (fun c => (split_to_args c).tokens)).filter (fun v => v ≠ []))
          blocks := by
  induction commands with
  | nil =>
    intro st hd
    exact ⟨[], by simp [spawn_loop], by simp⟩
  | cons command commands ih =>
    intro st hd
    cases htok : (split_to_args command).tokens with
    | nil =>
      obtain ⟨blocks, h1, h2⟩ := ih st hd
      have hrun : spawn_loop os (command :: commands) st = spawn_loop os commands st := by
        simp only [spawn_loop, htok]
      rw [hrun]
      refine ⟨blocks, h1, ?_⟩
      simpa [htok] using h2
    | cons a as =>
      have hfilter : ((command :: commands).map (fun c => (split_to_args c).tokens)).filter
          (fun v => v ≠ []) =
          (a :: as) :: (commands.map (fun c => (split_to_args c).tokens)).filter
            (fun v => v ≠ []) := by
        simp [htok]
      rw [hfilter]
      by_cases hfork : os.fork_ok st.trace.length = true
      · have hrun : spawn_loop os (command :: commands) st = spawn_loop os commands
            { st with trace := (segment_child os
              { st.log (Event.fork (a :: as) true) with depth := st.depth + 1 } (a :: as)).trace } := by
          simp only [spawn_loop, htok, hfork, if_true]
        have hdep : ({ st.log (Event.fork (a :: as) true) with depth := st.depth + 1 } :
            Shell).depth = 1 := by show st.depth + 1 = 1; omega
        obtain ⟨-, m, hm, hdeep⟩ := segment_child_deep os 1
          { st.log (Event.fork (a :: as) true) with depth := st.depth + 1 } (a :: as)
          (by show 1 ≤ st.depth + 1; omega)
        have hentry := segment_child_entry os
          { st.log (Event.fork (a :: as) true) with depth := st.depth + 1 } (a :: as) hdep
        rw [new_events_append _ _ m hm,
          (handle_redirection_indep os _ st0 (a :: as)).2] at hentry
        obtain ⟨blocks, h1, h2⟩ := ih
          { st with trace := (segment_child os
            { st.log (Event.fork (a :: as) true) with depth := st.depth + 1 } (a :: as)).trace } hd
        rw [hrun]
        refine ⟨(Event.fork (a :: as) true :: m) :: blocks, ?_, ?_⟩
        · rw [h1]
          show (segment_child os _ (a :: as)).trace ++ blocks.flatten = _
          rw [hm]
          simp [Shell.log, hd, tag]
        · refine List.Forall₂.cons (Or.inr ⟨m, rfl, ?_, hentry⟩) h2
          intro e he
          obtain ⟨e0, rfl⟩ := hdeep e he
          exact ⟨_, rfl⟩
      · have hrun : spawn_loop os (command :: commands) st =
            spawn_loop os commands (st.log (Event.fork (a :: as) false)) := by
          simp only [spawn_loop, htok, hfork, Bool.false_eq_true, if_false]
        obtain ⟨blocks, h1, h2⟩ := ih (st.log (Event.fork (a :: as) false)) hd
        rw [hrun]
        refine ⟨[Event.fork (a :: as) false] :: blocks, ?_, List.Forall₂.cons (Or.inl rfl) h2⟩
        rw [h1]
        simp [Shell.log, hd, tag]

/-- In a log made of segment blocks, the entries of `command_execute` in children
are as many as the children created. -/
theorem blocks_entries (os : OS) (st0 : Shell) (vectors : List (List Str))
    (blocks : List (List Event)) (h : List.Forall₂ (segment_block os st0) vectors blocks) :
    executor_calls blocks.flatten = children_created blocks.flatten := by
  induction h with
  | nil => rfl
  | @cons v b vs bs hb _ ih =>
    rw [List.flatten_cons, executor_calls_eq, executor_args_append, List.length_append,
      children_created_append, ← executor_calls_eq bs.flatten, ih]
    congr 1
    rcases hb with rfl | ⟨child, rfl, hchild, hentry⟩
    · rfl
    · have h1 : executor_args (Event.fork v true :: child) = executor_args child := rfl
      have h2 : children_created (Event.fork v true :: child) = children_created child + 1 := by
        unfold children_created
        rw [List.countP_cons]
        rfl
      rw [h1, hentry, h2, children_created_in_child child hchild]
      rfl

/-- The log of `handle_parallel_commands` run by the interpreter, by segment: the
entry, one block per token-holding segment among the first 63 non-empty ones,
then the waits. -/
theorem parallel_blocks (os : OS) (st : Shell) (line : Str) (hd : st.depth = 0) :
    ∃ blocks n, new_events st (handle_parallel_commands os st line) =
        Event.call Fn.handle_parallel_commands [line] ::
          (blocks.flatten ++ List.replicate n Event.wait) ∧
      List.Forall₂ (segment_block os st)
        ((((fields (fun c => c == '&') line).take 63).map spec_fields).filter
          (fun v => v ≠ [])) blocks := by
  obtain ⟨blocks, h1, h2⟩ := spawn_loop_blocks os st
    (commands_loop (line.length + 1) (strtok ['&'] line) [])
    (st.log (Event.call Fn.handle_parallel_commands [line])) hd
  have hdep : (spawn_loop os (commands_loop (line.length + 1) (strtok ['&'] line) [])
      (st.log (Event.call Fn.handle_parallel_commands [line]))).depth = 0 := by
    rw [spawn_loop_frame]; exact hd
  have hw := wait_loop_spec (commands_loop (line.length + 1) (strtok ['&'] line) []).length _ hdep
  refine ⟨blocks, (commands_loop (line.length + 1) (strtok ['&'] line) []).length, ?_, ?_⟩
  · apply new_events_append
    unfold handle_parallel_commands
    simp only
    rw [hw, h1]
    simp [Shell.log, hd, tag]
  · have hvec : ((commands_loop (line.length + 1) (strtok ['&'] line) []).map
        (fun c => (split_to_args c).tokens)) =
        ((fields (fun c => c == '&') line).take 63).map spec_fields := by
      rw [commands_loop_line]
      apply List.map_congr_left
      intro c _
      exact split_to_args_tokens c
    rw [hvec] at h2
    exact h2

set_option maxRecDepth 200000 in
/-- Counterexample to C12 as stated: on the line `a&a&...a&` with 64 segments `a`, every
one of them holding a token, `command_execute` is entered in 63 children only: the
last segment is handed to nobody. -/
theorem parallel_segment_not_executed :
    '&' ∈ many_segments 64 ∧
    (spec_spawns (many_segments 64)).length = 64 ∧
    executor_calls (new_events (initial [])
      (run_line os_all (initial []) (many_segments 64))) = 63 := by
  refine ⟨by decide, by decide, ?_⟩
  decide

/-- C12, amended: processing a line containing `&` returns the state of the
interpreter as it was but for the log: the interpreter has not exited, and its
working directory, `search_paths` and `num_paths` are unchanged.  No process runs
`command_cd`, `command_path` or `chdir`, the interpreter itself calls no `exit`, every
child the interpreter creates calls `command_execute` on the vector
`handle_redirection` leaves, and the children are forked for the token vectors of
the first 63 non-empty segments that hold a token.  Segment by segment: the log
of the interpreter is the entry, then one block for each of these token
vectors, in order, then the waits; the block of a vector is its fork and, when
the fork created a child, the events of that child, among which there is
exactly one entry of `command_execute`, on the vector `handle_redirection` leaves of
it; so the entries of `command_execute` in children are as many as the children
created. -/
theorem parallel_line_frame (os : OS) (st : Shell) (line : Str) (hamp : '&' ∈ line)
    (hd : st.depth = 0) :
    run_line os st line = { st with trace := (run_line os st line).trace } ∧
    (run_line os st line).halted = st.halted ∧
    (run_line os st line).cwd = st.cwd ∧
    (run_line os st line).search_paths = st.search_paths ∧
    (run_line os st line).num_paths = st.num_paths ∧
    (∀ e ∈ new_events st (run_line os st line),
      e.is_builtin = false ∧ ∀ code, e ≠ Event.exit code) ∧
    (∀ args, Event.fork args true ∈ new_events st (run_line os st line) →
      Event.in_child (Event.call Fn.command_execute (handle_redirection os st args).2.1) ∈
        new_events st (run_line os st line)) ∧
    forks_of (new_events st (run_line os st line)) =
      (((fields (fun c => c == '&') line).take 63).map spec_fields).filter (fun v => v ≠ []) ∧
    (∃ blocks n, new_events st (run_line os st line) =
        Event.call Fn.handle_parallel_commands [line] ::
          (blocks.flatten ++ List.replicate n Event.wait) ∧
      List.Forall₂ (segment_block os st)
        ((((fields (fun c => c == '&') line).take 63).map spec_fields).filter
          (fun v => v ≠ [])) blocks) ∧
    executor_calls (new_events st (run_line os st line)) =
      children_created (new_events st (run_line os st line)) := by
  have hrun : run_line os st line = handle_parallel_commands os st line := by
    unfold run_line; rw [if_pos hamp]
  have hframe := handle_parallel_commands_frame os st line
  obtain ⟨spawned, n, h1, h2, -, h4, h5⟩ := parallel_shape os st line hd
  obtain ⟨blocks, nb, hb1, hb2⟩ := parallel_blocks os st line hd
  have hcount : executor_calls (new_events st (handle_parallel_commands os st line)) =
      children_created (new_events st (handle_parallel_commands os st line)) := by
    have hwa : executor_args (List.replicate nb Event.wait) = [] := by
      apply executor_args_none
      intro e he
      rw [List.eq_of_mem_replicate he]
      rfl
    have hwc : children_created (List.replicate nb Event.wait) = 0 := by
      unfold children_created
      rw [List.countP_eq_zero]
      intro e he
      rw [List.eq_of_mem_replicate he]
      simp
    have hc1 : executor_calls (Event.call Fn.handle_parallel_commands [line] ::
        (blocks.flatten ++ List.replicate nb Event.wait)) =
        executor_calls (blocks.flatten ++ List.replicate nb Event.wait) := by
      unfold executor_calls
      rw [List.countP_cons]
      rfl
    have hc2 : children_created (Event.call Fn.handle_parallel_commands [line] ::
        (blocks.flatten ++ List.replicate nb Event.wait)) =
        children_created (blocks.flatten ++ List.replicate nb Event.wait) := by
      unfold children_created
      rw [List.countP_cons]
      rfl
    rw [hb1, hc1, hc2, executor_calls_eq, executor_args_append, hwa, List.append_nil,
      children_created_append, hwc, Nat.add_zero, ← executor_calls_eq]
    exact blocks_entries os st _ blocks hb2
  rw [hrun]
  refine ⟨hframe, by rw [hframe], by rw [hframe], by rw [hframe], by rw [hframe], ?_, ?_,
    (parallel_forks os st line hd).1, ⟨blocks, nb, hb1, hb2⟩, hcount⟩
  · intro e he
    rw [h1] at he
    simp only [List.mem_cons, List.mem_append] at he
    rcases he with rfl | he | he
    · exact ⟨rfl, fun code hc => Event.noConfusion hc⟩
    · refine ⟨h4 e he, ?_⟩
      intro code hc
      rcases h2 e he with ⟨a, ok, hf⟩ | ⟨e0, hin⟩
      · rw [hc] at hf; exact Event.noConfusion hf
      · rw [hc] at hin; exact Event.noConfusion hin
    · rw [List.eq_of_mem_replicate he]
      exact ⟨rfl, fun code hc => Event.noConfusion hc⟩
  · intro args hargs
    rw [h1] at hargs ⊢
    simp only [List.mem_cons, List.mem_append] at hargs
    rcases hargs with hx | hx | hx
    · exact Event.noConfusion hx
    · exact List.mem_cons_of_mem _ (List.mem_append_left _ (h5 args hx))
    · exact Event.noConfusion (List.eq_of_mem_replicate hx)

/-- Witness of C12: `cd /tmp & exit & path /x` leaves the interpreter running, in its
working directory and with its search path; the three segments are forked for,
and the child of the first one calls `command_execute` on `["cd", "/tmp"]`. -/
theorem parallel_line_frame_witness :
    run_line os_ls (initial []) "cd /tmp & exit & path /x".toList =
      { initial [] with
        trace := (run_line os_ls (initial []) "cd /tmp & exit & path /x".toList).trace } ∧
    forks_of (new_events (initial [])
        (run_line os_ls (initial []) "cd /tmp & exit & path /x".toList)) =
      [["cd".toList, "/tmp".toList], ["exit".toList], ["path".toList, "/x".toList]] ∧
    Event.in_child (Event.call Fn.command_execute ["cd".toList, "/tmp".toList]) ∈
      new_events (initial []) (run_line os_ls (initial []) "cd /tmp & exit & path /x".toList) ∧
    executor_calls (new_events (initial [])
        (run_line os_ls (initial []) "cd /tmp & exit & path /x".toList)) =
      children_created (new_events (initial [])
        (run_line os_ls (initial []) "cd /tmp & exit & path /x".toList)) ∧
    executor_args (new_events (initial [])
        (run_line os_ls (initial []) "cd /tmp & exit & path /x".toList)) =
      [["cd".toList, "/tmp".toList], ["exit".toList], ["path".toList, "/x".toList]] :=
  ⟨(parallel_line_frame os_ls (initial []) "cd /tmp & exit & path /x".toList
      (by decide) rfl).1,
   by decide, by decide,
   (parallel_line_frame os_ls (initial []) "cd /tmp & exit & path /x".toList
      (by decide) rfl).2.2.2.2.2.2.2.2.2,
   by decide⟩

end Wish
